import Mathlib

/-!
Verification of the delivery-routing core of `logica-entrega`
(`src/ai/astar.py`, `src/ai/genetic.py`, `src/core/simulator.py`,
`src/models/truck.py`, `src/models/order.py`).

Python floats are modelled exactly by rationals; `float(`inf`)` is modelled
by a dedicated `Cost.inf` constructor.  The NetworkX routines called by the
source (`nx.astar_path`, `nx.shortest_path_length` with a callable weight,
which dispatches to Dijkstra) are embedded faithfully, fuel-indexed: the
result `none` marks exhausted fuel and never occurs in any statement below.
Graphs are modelled with one attribute record per directed edge, which is
the per-edge contract the navigator code is written against (its weight
functions read the attribute dict directly).
-/

namespace Entrega

/-- Pavement quality attribute of an edge (`pavement_quality`). -/
inductive Pav
  | good
  | fair
  | bad
deriving DecidableEq, Repr

/-- Edge attribute record.  The Python code reads these with
`d.get(key, default)`; the map-loading code (`map_manager.py`) always
writes `traffic_level`, `pavement_quality`, `road_block` and `maxspeed`,
so fields are modelled as present. -/
structure EdgeData where
  length : ℚ
  travel_time : ℚ
  maxspeed : ℚ
  traffic_level : ℚ
  pavement_quality : Pav
  road_block : Bool
deriving DecidableEq, Repr

/-- Graph node: id plus the `x`/`y` coordinates used by the heuristic. -/
structure GNode where
  nid : ℕ
  x : ℚ
  y : ℚ
deriving DecidableEq, Repr

/-- Directed graph: node list plus edge list `(u, v, data)` in insertion
order (NetworkX adjacency iteration order). -/
structure Graph where
  nodes : List GNode
  edges : List (ℕ × ℕ × EdgeData)
deriving DecidableEq, Repr

def Graph.hasNode (g : Graph) (n : ℕ) : Bool :=
  g.nodes.any (fun v => v.nid == n)

/-- Successors of `u` with edge data, in edge-insertion order
(`G_succ[u].items()`). -/
def Graph.succ (g : Graph) (u : ℕ) : List (ℕ × EdgeData) :=
  g.edges.filterMap (fun e => if e.1 == u then some (e.2.1, e.2.2) else none)

/-- `G.get_edge_data(u, v)`: first matching edge record. -/
def Graph.findEdge (g : Graph) (u v : ℕ) : Option EdgeData :=
  (g.edges.find? (fun e => e.1 == u && e.2.1 == v)).map (fun e => e.2.2)

/-- Model of a Python float that may be `inf`: every weight/priority in the
navigator is either a finite rational or `float(`inf`)`. -/
inductive Cost
  | inf
  | fin (q : ℚ)
deriving DecidableEq, Repr, BEq

/-- Float addition: `inf` absorbs. -/
def Cost.add : Cost → Cost → Cost
  | Cost.inf, _ => Cost.inf
  | _, Cost.inf => Cost.inf
  | Cost.fin a, Cost.fin b => Cost.fin (a + b)

/-- Float strict comparison (`inf < inf` is false). -/
def Cost.blt : Cost → Cost → Bool
  | Cost.inf, _ => false
  | Cost.fin _, Cost.inf => true
  | Cost.fin a, Cost.fin b => decide (a < b)

/-- Float non-strict comparison (`inf <= inf` is true). -/
def Cost.ble : Cost → Cost → Bool
  | Cost.fin _, Cost.inf => true
  | Cost.inf, Cost.inf => true
  | Cost.inf, Cost.fin _ => false
  | Cost.fin a, Cost.fin b => decide (a ≤ b)

/-- `weight_function` closed over `is_fragile` inside
`AStarNavigator.get_path` (astar.py lines 54-74): blocked edges get weight
`inf`; bad pavement multiplies by `5000.0` for fragile trips and `1.4`
otherwise; traffic multiplies by `1 + traffic_level`. -/
def weight_function_get_path (is_fragile : Bool) (d : EdgeData) : Cost :=
  if d.road_block then Cost.inf
  else
    Cost.fin (d.travel_time *
      (if d.pavement_quality = Pav.bad then (if is_fragile then 5000 else (14 : ℚ)/10) else 1) *
      (1 + d.traffic_level))

/-- `weight_function` inside `AStarNavigator.get_path_cost`
(astar.py lines 101-117), written out a second time in the source. -/
def weight_function_get_path_cost (is_fragile : Bool) (d : EdgeData) : Cost :=
  if d.road_block then Cost.inf
  else
    Cost.fin (d.travel_time *
      (if d.pavement_quality = Pav.bad then (if is_fragile then 5000 else (14 : ℚ)/10) else 1) *
      (1 + d.traffic_level))

/-- Sum of the `get_path` edge cost function over the consecutive edges of
a node list (the quantity the specification calls "the sum of the edge
cost function over the path"); a missing edge contributes `inf`. -/
def path_cost_sum (g : Graph) (is_fragile : Bool) : List ℕ → Cost
  | [] => Cost.fin 0
  | [_] => Cost.fin 0
  | u :: v :: rest =>
      (match g.findEdge u v with
        | some d => weight_function_get_path is_fragile d
        | none => Cost.inf).add (path_cost_sum g is_fragile (v :: rest))

/-- Entry of the `heapq` priority queue used by `nx.astar_path`:
`(priority, counter, node, dist, parent)`. -/
structure QEntry where
  pri : Cost
  ctr : ℕ
  node : ℕ
  dist : Cost
  parent : Option ℕ
deriving DecidableEq, Repr

/-- Heap order on entries: lexicographic on `(priority, counter)`;
counters are pairwise distinct so deeper tuple components never compare. -/
def entryLt (a b : QEntry) : Bool :=
  Cost.blt a.pri b.pri || (a.pri == b.pri && a.ctr < b.ctr)

/-- `heappop`: remove the least entry under `entryLt`. -/
def popMin : List QEntry → Option (QEntry × List QEntry)
  | [] => none
  | e :: es =>
      match popMin es with
      | none => some (e, [])
      | some (m, rest) => if entryLt m e then some (m, e :: rest) else some (e, es)

/-- Lookup in an association list modelling a Python dict
(newest binding first). -/
def lookupA {α : Type} (l : List (ℕ × α)) (k : ℕ) : Option α :=
  (l.find? (fun p => p.1 == k)).map (fun p => p.2)

/-- Dict update: prepend, so `lookupA` sees the newest binding. -/
def insertA {α : Type} (l : List (ℕ × α)) (k : ℕ) (v : α) : List (ℕ × α) :=
  (k, v) :: l

/-- Path reconstruction loop of `nx.astar_path`: follow `explored` parents
from `parent` back to the source, accumulating in front of `acc`.  A
missing key would be a `KeyError`, caught by `get_path` as `[]`. -/
def buildPath (explored : List (ℕ × Option ℕ)) : ℕ → Option ℕ → List ℕ → Option (List ℕ)
  | 0, _, _ => none
  | _ + 1, none, acc => some acc
  | fuel + 1, some n, acc =>
      match lookupA explored n with
      | none => some []
      | some p => buildPath explored fuel p (n :: acc)

/-- Neighbor-relaxation fold of `nx.astar_path`: for each successor,
compute the tentative cost, skip if a cheaper enqueueing exists, otherwise
(re)enqueue with priority `ncost + h(neighbor, target)`.  State is
`(queue, enqueued, counter)`. -/
def pushNeighbors (h : ℕ → ℕ → ℚ) (target : ℕ) (isf : Bool) (cur : ℕ) (dist : Cost) :
    List (ℕ × EdgeData) → List QEntry × List (ℕ × (Cost × ℚ)) × ℕ →
    List QEntry × List (ℕ × (Cost × ℚ)) × ℕ
  | [], st => st
  | (nbr, d) :: rest, (queue, enq, ctr) =>
      let cost := weight_function_get_path isf d
      let ncost := dist.add cost
      let next :=
        match lookupA enq nbr with
        | some (qcost, hv) =>
            if Cost.ble qcost ncost then (queue, enq, ctr)
            else (⟨ncost.add (Cost.fin hv), ctr, nbr, ncost, some cur⟩ :: queue,
                  insertA enq nbr (ncost, hv), ctr + 1)
        | none =>
            let hv := h nbr target
            (⟨ncost.add (Cost.fin hv), ctr, nbr, ncost, some cur⟩ :: queue,
             insertA enq nbr (ncost, hv), ctr + 1)
      pushNeighbors h target isf cur dist rest next

/-- Main loop of `nx.astar_path`.  Returns `some []` where the Python
raises `NetworkXNoPath` (caught by `get_path` and turned into `[]`), and
`none` only on fuel exhaustion. -/
def astarLoop (g : Graph) (h : ℕ → ℕ → ℚ) (target : ℕ) (isf : Bool) :
    ℕ → List QEntry → List (ℕ × (Cost × ℚ)) → List (ℕ × Option ℕ) → ℕ → Option (List ℕ)
  | 0, _, _, _, _ => none
  | fuel + 1, queue, enq, expl, ctr =>
      match popMin queue with
      | none => some []
      | some (e, rest) =>
          if e.node == target then
            buildPath expl (fuel + 1) e.parent [e.node]
          else
            let skip : Bool :=
              match lookupA expl e.node with
              | none => false
              | some none => true
              | some (some _) =>
                  match lookupA enq e.node with
                  | some (qcost, _) => Cost.blt qcost e.dist
                  | none => false
            if skip then astarLoop g h target isf fuel rest enq expl ctr
            else
              let expl2 := insertA expl e.node e.parent
              match pushNeighbors h target isf e.node e.dist (g.succ e.node) (rest, enq, ctr) with
              | (queue2, enq2, ctr2) => astarLoop g h target isf fuel queue2 enq2 expl2 ctr2

/-- `AStarNavigator.get_path` (astar.py lines 43-88): `nx.astar_path` with
the Euclidean `_heuristic` (passed here as the parameter `h`) and the
fragility-aware weight function; every exception (`NetworkXNoPath`,
`NodeNotFound`, ...) is caught and turned into `[]`. -/
def get_path (g : Graph) (h : ℕ → ℕ → ℚ) (fuel : ℕ) (start_node end_node : ℕ)
    (is_fragile : Bool) : Option (List ℕ) :=
  if g.hasNode start_node && g.hasNode end_node then
    astarLoop g h end_node is_fragile fuel
      [⟨Cost.fin 0, 0, start_node, Cost.fin 0, none⟩] [] [] 1
  else some []

/-- Entry of the Dijkstra fringe: `(dist, counter, node)`. -/
structure DEntry where
  d : Cost
  ctr : ℕ
  v : ℕ
deriving DecidableEq, Repr

def dentryLt (a b : DEntry) : Bool :=
  Cost.blt a.d b.d || (a.d == b.d && a.ctr < b.ctr)

def popMinD : List DEntry → Option (DEntry × List DEntry)
  | [] => none
  | e :: es =>
      match popMinD es with
      | none => some (e, [])
      | some (m, rest) => if dentryLt m e then some (m, e :: rest) else some (e, es)

/-- Outcome of the Dijkstra loop: fuel exhausted, the
"Contradictory paths found" `ValueError`, or the final distance dict. -/
inductive DOut
  | out
  | err
  | res (dist : List (ℕ × Cost))
deriving DecidableEq, Repr

/-- Neighbor relaxation of `_dijkstra_multisource`: raises `ValueError` if
a finalized node is seen with a strictly smaller distance, pushes a fringe
entry when the tentative distance improves `seen`. -/
def dijkstraRelax (isf : Bool) (vdist : Cost) :
    List (ℕ × EdgeData) → List DEntry × List (ℕ × Cost) × List (ℕ × Cost) × ℕ →
    Option (List DEntry × List (ℕ × Cost) × List (ℕ × Cost) × ℕ)
  | [], st => some st
  | (u, ed) :: rest, (fringe, dist, seen, ctr) =>
      let cost := weight_function_get_path_cost isf ed
      let vu := vdist.add cost
      match lookupA dist u with
      | some du =>
          if Cost.blt vu du then none
          else dijkstraRelax isf vdist rest (fringe, dist, seen, ctr)
      | none =>
          let push : Bool :=
            match lookupA seen u with
            | none => true
            | some su => Cost.blt vu su
          if push then
            dijkstraRelax isf vdist rest
              (⟨vu, ctr, u⟩ :: fringe, dist, insertA seen u vu, ctr + 1)
          else dijkstraRelax isf vdist rest (fringe, dist, seen, ctr)

/-- Main loop of `_dijkstra_multisource` with a target: pop the least
fringe entry, finalize it, stop when the target is finalized. -/
def dijkstraLoop (g : Graph) (isf : Bool) (target : ℕ) :
    ℕ → List DEntry → List (ℕ × Cost) → List (ℕ × Cost) → ℕ → DOut
  | 0, _, _, _, _ => DOut.out
  | fuel + 1, fringe, dist, seen, ctr =>
      match popMinD fringe with
      | none => DOut.res dist
      | some (e, rest) =>
          if (lookupA dist e.v).isSome then
            dijkstraLoop g isf target fuel rest dist seen ctr
          else
            let dist2 := insertA dist e.v e.d
            if e.v == target then DOut.res dist2
            else
              match dijkstraRelax isf e.d (g.succ e.v) (rest, dist2, seen, ctr) with
              | none => DOut.err
              | some (fringe2, dist3, seen2, ctr2) =>
                  dijkstraLoop g isf target fuel fringe2 dist3 seen2 ctr2

/-- `AStarNavigator.get_path_cost` (astar.py lines 90-131):
`nx.shortest_path_length` with a callable weight dispatches to
`nx.dijkstra_path_length`; `NetworkXNoPath` and every other exception
(`NodeNotFound`, the contradictory-paths `ValueError`) are caught and
turned into `float(`inf`)`; `source == target` short-circuits to `0`. -/
def get_path_cost (g : Graph) (fuel : ℕ) (start_node end_node : ℕ)
    (is_fragile : Bool) : Option Cost :=
  if ¬ (g.hasNode start_node = true) then some Cost.inf
  else if start_node == end_node then some (Cost.fin 0)
  else
    match dijkstraLoop g is_fragile end_node fuel [⟨Cost.fin 0, 0, start_node⟩] [] [(start_node, Cost.fin 0)] 1 with
    | DOut.out => none
    | DOut.err => some Cost.inf
    | DOut.res dist => some ((lookupA dist end_node).getD Cost.inf)

/-- Risk annotation written by the neural collaborator (consumed, never
read by the core paths verified here). -/
inductive Risk
  | low
  | medium
  | high
  | unknown
deriving DecidableEq, Repr

/-- `Order` dataclass (order.py).  `current_integrity` and `delivered` are
the two core-owned mutable fields. -/
structure Order where
  oid : ℕ
  node_id : ℕ
  deadline : ℚ
  weight : ℚ
  is_fragile : Bool
  priority_class : ℕ
  fuzzy_priority : ℚ
  risk_level : Risk
  current_integrity : ℚ
  delivered : Bool
deriving DecidableEq, Repr

/-- Placeholder order used only by out-of-bounds `getD` lookups, which
never fire under the index-validity hypotheses of the theorems below. -/
def dummyOrder : Order :=
  ⟨0, 0, 0, 0, false, 0, 0, Risk.unknown, 100, false⟩

/-- Python exceptions that the genetic-algorithm/simulator code can raise
and does not catch. -/
inductive PyErr
  | valueError
  | indexError
  | attributeError
  | typeError
deriving DecidableEq, Repr

/-- One selection step of `random.sample`: pick a pseudo-random element of
the remaining pool (the stream `rng` abstracts the Mersenne Twister; every
theorem below holds for every stream) and remove it. -/
def sampleGo (rng : ℕ → ℕ) : ℕ → ℕ → List ℕ → List ℕ × ℕ
  | c, 0, _ => ([], c)
  | c, k + 1, pool =>
      let i := rng c % pool.length
      let x := pool.getD i 0
      let r := sampleGo rng (c + 1) k (pool.eraseIdx i)
      (x :: r.1, r.2)

/-- `random.sample(range(n), k)`: raises `ValueError` when `k > n`, else
returns `k` distinct members of `range(n)`. -/
def sampleRange (rng : ℕ → ℕ) (c n k : ℕ) : Except PyErr (List ℕ × ℕ) :=
  if n < k then Except.error PyErr.valueError
  else Except.ok (sampleGo rng c k (List.range n))

/-- `random.random() < 0.1` gate of `_mutate`, abstracted as a
stream-driven boolean draw. -/
def randBelowTenth (rng : ℕ → ℕ) (c : ℕ) : Bool × ℕ :=
  (rng c % 10 == 0, c + 1)

/-- Scalar multiplication of a float-or-inf by a finite float.  (Python
would produce `nan` for `inf * 0.0`; that corner arises only for an order
whose `fuzzy_priority` is `0` on an unreachable leg and affects no claim.) -/
def Cost.scale (a : Cost) (q : ℚ) : Cost :=
  match a with
  | Cost.inf => Cost.inf
  | Cost.fin x => Cost.fin (x * q)

/-- Loop body state of `GeneticTSP._calculate_fitness`. -/
structure FitState where
  total_score : Cost
  current_node : ℕ
  current_load : ℚ
  current_time : Cost
  fragile_position_penalty : ℚ
deriving DecidableEq, Repr

/-- The fitness loop of `GeneticTSP._calculate_fitness` (genetic.py lines
57-100), instrumented to also return the `is_fragile` flag passed to
`get_path_cost` for each order leg (the quantity claim C2 is about).
`costFn` is the injected `astar_engine.get_path_cost`. -/
def fitnessLoop (costFn : ℕ → ℕ → Bool → Cost) (orders : List Order)
    (depot_node : ℕ) (truck_capacity : ℚ) (total_orders : ℕ) :
    List ℕ → ℕ → FitState → FitState × List Bool
  | [], _, st => (st, [])
  | order_index :: rest, position, st =>
      let order := orders.getD order_index dummyOrder
      let st1 :=
        if truck_capacity < st.current_load + order.weight then
          let cost_to_depot := costFn st.current_node depot_node false
          { st with
              total_score := st.total_score.add cost_to_depot
              current_time := st.current_time.add cost_to_depot
              current_node := depot_node
              current_load := 0 }
        else st
      let is_fragile_trip := order.is_fragile
      let travel_cost := costFn st1.current_node order.node_id is_fragile_trip
      let time2 := st1.current_time.add travel_cost
      let priority_weight := order.fuzzy_priority
      let time_penalty := time2.scale (priority_weight / 5)
      let fragPen2 :=
        if order.is_fragile then
          st1.fragile_position_penalty +
            (1 - (position : ℚ) / (max (total_orders - 1) 1 : ℕ)) * 50
        else st1.fragile_position_penalty
      let st2 : FitState :=
        { total_score := ((st1.total_score.add travel_cost).add time_penalty),
          current_node := order.node_id,
          current_load := st1.current_load + order.weight,
          current_time := time2,
          fragile_position_penalty := fragPen2 }
      let r := fitnessLoop costFn orders depot_node truck_capacity total_orders rest (position + 1) st2
      (r.1, is_fragile_trip :: r.2)

/-- `GeneticTSP._calculate_fitness` (genetic.py lines 34-112): total score
accumulated over the route plus final depot return and the fragile
position penalty, inverted into a fitness. -/
def calculate_fitness (costFn : ℕ → ℕ → Bool → Cost) (orders : List Order)
    (depot_node : ℕ) (truck_capacity : ℚ) (individual : List ℕ) : ℚ :=
  let r := fitnessLoop costFn orders depot_node truck_capacity individual.length
    individual 0 ⟨Cost.fin 0, depot_node, 0, Cost.fin 0, 0⟩
  let final_cost := costFn r.1.current_node depot_node false
  match (r.1.total_score.add final_cost).add (Cost.fin r.1.fragile_position_penalty) with
  | Cost.inf => 0
  | Cost.fin t => 1 / (t + 1 / 1000000)

/-- The list of `is_fragile` flags `_calculate_fitness` passes to
`get_path_cost` on the per-order travel legs, in route order (its forced
depot-return legs and the final leg always pass `is_fragile=False`). -/
def fitness_trip_flags (orders : List Order) (depot_node : ℕ)
    (truck_capacity : ℚ) (individual : List ℕ) : List Bool :=
  (fitnessLoop (fun _ _ _ => Cost.fin 0) orders depot_node truck_capacity
    individual.length individual 0 ⟨Cost.fin 0, depot_node, 0, Cost.fin 0, 0⟩).2

/-- Modelled from the spec (§4.2, §8 "Fragility contamination"): the flag
the specification says each order leg should carry — true when the new
order is fragile or the vehicle currently carries any fragile cargo, with
cargo cleared at each forced depot return. -/
def spec_trip_flags (orders : List Order) (truck_capacity : ℚ) :
    List ℕ → ℚ → Bool → List Bool
  | [], _, _ => []
  | order_index :: rest, current_load, aboard_fragile =>
      let order := orders.getD order_index dummyOrder
      let aboard1 :=
        if truck_capacity < current_load + order.weight then false else aboard_fragile
      let load1 :=
        if truck_capacity < current_load + order.weight then 0 else current_load
      let flag := order.is_fragile || aboard1
      flag :: spec_trip_flags orders truck_capacity rest (load1 + order.weight)
        (aboard1 || order.is_fragile)

/-- `GeneticTSP._tournament` (genetic.py lines 161-168): sample 3 indices,
keep the index whose score is largest under the left-biased scan, return
that individual. -/
def tournament (rng : ℕ → ℕ) (c : ℕ) (pop : List (List ℕ)) (scores : List ℚ) :
    Except PyErr (List ℕ × ℕ) :=
  match sampleRange rng c pop.length 3 with
  | Except.error e => Except.error e
  | Except.ok (selection_ix, c2) =>
      let best_ix := selection_ix.drop 1 |>.foldl
        (fun best ix => if scores.getD best 0 < scores.getD ix 0 then ix else best)
        (selection_ix.getD 0 0)
      Except.ok (pop.getD best_ix [], c2)

/-- Scan for the first free (`None`) slot, reporting its absolute index
(the second argument carries the index of the scan head). -/
def scanFree : List (Option ℕ) → ℕ → Option ℕ
  | [], _ => none
  | none :: _, i => some i
  | some _ :: t, i => scanFree t (i + 1)

/-- Index of the first free (`None`) slot at or after `ptr`
(the `while child[ptr] is not None: ptr += 1` scan; running off the end is
Python's `IndexError`). -/
def nextNone (child : List (Option ℕ)) (ptr : ℕ) : Option ℕ :=
  scanFree (child.drop ptr) ptr

/-- Gene-placement loop of `GeneticTSP._crossover`: for each parent-2 gene
not in the copied parent-1 slice, write it into the next free slot; a scan
past the end is Python's `IndexError`. -/
def placeAll (slice : List ℕ) : List ℕ → ℕ → List (Option ℕ) →
    Except PyErr (List (Option ℕ))
  | [], _, child => Except.ok child
  | gene :: rest, ptr, child =>
      if gene ∈ slice then placeAll slice rest ptr child
      else
        match nextNone child ptr with
        | none => Except.error PyErr.indexError
        | some j => placeAll slice rest j (child.set j (some gene))

/-- `GeneticTSP._crossover` (genetic.py lines 170-182), Order-1 crossover:
copy `p1[start:end]` into the child, then fill the free slots with the
remaining genes in parent-2 order.  (On the permutation inputs it receives
the child has no free slot left, so dropping `Option` loses nothing; this
is proved in `crossover_perm` below.) -/
def crossover (rng : ℕ → ℕ) (c : ℕ) (p1 p2 : List ℕ) :
    Except PyErr (List ℕ × ℕ) :=
  match sampleRange rng c p1.length 2 with
  | Except.error e => Except.error e
  | Except.ok (l, c2) =>
      let a := l.getD 0 0
      let b := l.getD 1 0
      let start := min a b
      let stop := max a b
      let slice := (p1.drop start).take (stop - start)
      let child0 := List.replicate start (none : Option ℕ) ++ slice.map some ++
        List.replicate (p1.length - stop) (none : Option ℕ)
      match placeAll slice p2 0 child0 with
      | Except.error e => Except.error e
      | Except.ok child => Except.ok (child.reduceOption, c2)

/-- `GeneticTSP._mutate` (genetic.py lines 184-188): with the stream-driven
10% draw, swap two sampled positions. -/
def mutate (rng : ℕ → ℕ) (c : ℕ) (indiv : List ℕ) :
    Except PyErr (List ℕ × ℕ) :=
  match randBelowTenth rng c with
  | (false, c2) => Except.ok (indiv, c2)
  | (true, c2) =>
      match sampleRange rng c2 indiv.length 2 with
      | Except.error e => Except.error e
      | Except.ok (l, c3) =>
          let i := l.getD 0 0
          let j := l.getD 1 0
          Except.ok ((indiv.set i (indiv.getD j 0)).set j (indiv.getD i 0), c3)

/-- Reproduction loop of `GeneticTSP.solve`
(`while len(next_pop) < self.population_size`), fuelled by the population
size since each round appends exactly one child. -/
def reproduce (rng : ℕ → ℕ) (pop : List (List ℕ)) (scores : List ℚ)
    (population_size : ℕ) :
    ℕ → ℕ → List (List ℕ) → Except PyErr (List (List ℕ) × ℕ)
  | 0, c, next_pop => Except.ok (next_pop, c)
  | fuel + 1, c, next_pop =>
      if next_pop.length < population_size then
        match tournament rng c pop scores with
        | Except.error e => Except.error e
        | Except.ok (p1, c2) =>
            match tournament rng c2 pop scores with
            | Except.error e => Except.error e
            | Except.ok (p2, c3) =>
                match crossover rng c3 p1 p2 with
                | Except.error e => Except.error e
                | Except.ok (child, c4) =>
                    match mutate rng c4 child with
                    | Except.error e => Except.error e
                    | Except.ok (child2, c5) =>
                        reproduce rng pop scores population_size fuel c5
                          (next_pop ++ [child2])
      else Except.ok (next_pop, c)

/-- Best-so-far tracking fold of `GeneticTSP.solve`
(`for i, score in enumerate(fitness_scores): if score > max_fitness: ...`). -/
def trackBest : List (ℚ × List ℕ) → ℚ × Option (List ℕ) → ℚ × Option (List ℕ)
  | [], st => st
  | (score, ind) :: rest, (max_fitness, best) =>
      if max_fitness < score then trackBest rest (score, some ind)
      else trackBest rest (max_fitness, best)

/-- Generation loop of `GeneticTSP.solve`. -/
def solveGens (rng : ℕ → ℕ) (costFn : ℕ → ℕ → Bool → Cost) (orders : List Order)
    (depot_node : ℕ) (truck_capacity : ℚ) (population_size : ℕ) :
    ℕ → ℕ → List (List ℕ) → ℚ × Option (List ℕ) →
    Except PyErr (Option (List ℕ) × ℕ)
  | 0, c, _, best => Except.ok (best.2, c)
  | gens + 1, c, population, best =>
      let fitness_scores := population.map
        (calculate_fitness costFn orders depot_node truck_capacity)
      let best2 := trackBest (fitness_scores.zip population) best
      let sorted_pop := ((fitness_scores.zip population).mergeSort
        (fun x y => decide (y.1 ≤ x.1))).map (fun p => p.2)
      let next_pop := sorted_pop.take 2
      match reproduce rng population fitness_scores population_size
          population_size c next_pop with
      | Except.error e => Except.error e
      | Except.ok (pop2, c2) =>
          solveGens rng costFn orders depot_node truck_capacity population_size
            gens c2 pop2 best2

/-- Initial population: `population_size` draws of
`random.sample(indices, len(indices))`. -/
def initPop (rng : ℕ → ℕ) (n : ℕ) : ℕ → ℕ → List (List ℕ) × ℕ
  | 0, c => ([], c)
  | p + 1, c =>
      match sampleRange rng c n n with
      | Except.error _ => ([], c)
      | Except.ok (ind, c2) =>
          let r := initPop rng n p c2
          (ind :: r.1, r.2)

/-- `GeneticTSP.solve` (genetic.py lines 114-159).  Returns `none` in the
position of Python's `best_route = None` (only reachable with zero
generations); the `sampleRange` in `initPop` never errors since it draws
`n` from `n`. -/
def solve (rng : ℕ → ℕ) (c : ℕ) (costFn : ℕ → ℕ → Bool → Cost)
    (orders : List Order) (depot_node : ℕ) (truck_capacity : ℚ)
    (population_size generations : ℕ) : Except PyErr (Option (List ℕ) × ℕ) :=
  if orders.isEmpty then Except.ok (some [], c)
  else
    let n := orders.length
    let r := initPop rng n population_size c
    solveGens rng costFn orders depot_node truck_capacity population_size
      generations r.2 r.1 (-1, none)

/-- Execution mode label of the result dict. -/
inductive RouteMode
  | smart
  | dfs
  | bfs
  | legacy
deriving DecidableEq, Repr

/-- The result dict of `Simulator._execute_delivery_route`. -/
structure SimResult where
  mode : RouteMode
  time_total : ℚ
  distance_km : ℚ
  avg_integrity : ℚ
  orders_delivered : ℕ
deriving DecidableEq, Repr

/-- Vehicle-and-cargo state of `Simulator._execute_delivery_route`.
`cargo` holds indices into `orders` (Python stores the `Order` objects
themselves; indices model that aliasing, all integrity mutation going
through the single `orders` list). -/
structure ExecState where
  orders : List Order
  cargo : List ℕ
  current_node : ℕ
  total_time_minutes : ℚ
  total_dist_km : ℚ
deriving DecidableEq, Repr

/-- `Truck.current_load` (truck.py): sum of cargo weights. -/
def current_load (orders : List Order) (cargo : List ℕ) : ℚ :=
  (cargo.map (fun i => (orders.getD i dummyOrder).weight)).sum

/-- `Truck.can_load`: the additional weight fits. -/
def can_load (orders : List Order) (cargo : List ℕ) (capacity w : ℚ) : Bool :=
  decide (current_load orders cargo + w ≤ capacity)

/-- `Truck.get_fragile_cargo`: fragile members of the cargo. -/
def get_fragile_cargo (orders : List Order) (cargo : List ℕ) : List ℕ :=
  cargo.filter (fun i => (orders.getD i dummyOrder).is_fragile)

/-- One integrity hit (`order.current_integrity -= damage_ticks`, floored
at `0`) applied to the order at index `i`. -/
def damageTick (orders : List Order) (i : ℕ) (ticks : ℚ) : List Order :=
  let o := orders.getD i dummyOrder
  let x := o.current_integrity - ticks
  orders.set i { o with current_integrity := if x < 0 then 0 else x }

/-- Damage loop over the fragile cargo members. -/
def applyDamage (orders : List Order) (frag : List ℕ) (ticks : ℚ) : List Order :=
  frag.foldl (fun os i => damageTick os i ticks) orders

/-- Edge loop of `Simulator._traverse_path` (simulator.py lines 298-351):
accumulates seconds and meters, pays the 120-minute road-block penalty,
computes the traffic/pavement-adjusted speed floored at 5 km/h, and
applies bad-pavement damage to the fragile cargo. -/
def traverseLoop (g : Graph) (cargo : List ℕ) :
    List ℕ → ℚ → ℚ → List Order → ℚ × ℚ × List Order
  | [], ts, dm, orders => (ts, dm, orders)
  | [_], ts, dm, orders => (ts, dm, orders)
  | u :: v :: rest, ts, dm, orders =>
      match g.findEdge u v with
      | none => traverseLoop g cargo (v :: rest) ts dm orders
      | some data =>
          let dm2 := dm + data.length
          let ts1 := if data.road_block then ts + 120 * 60 else ts
          let speed_kmh :=
            if data.pavement_quality = Pav.bad then data.maxspeed * (8 : ℚ)/10
            else data.maxspeed
          let effective :=
            if speed_kmh / (1 + data.traffic_level) < 5 then (5 : ℚ)
            else speed_kmh / (1 + data.traffic_level)
          let ts2 := ts1 + data.length / 1000 / effective * 3600
          let orders2 :=
            if data.pavement_quality = Pav.bad then
              applyDamage orders (get_fragile_cargo orders cargo) (data.length / 100 * 1)
            else orders
          traverseLoop g cargo (v :: rest) ts2 dm2 orders2

/-- `Simulator._traverse_path` (simulator.py lines 280-352): returns
`(minutes, kilometers)` and the updated orders. -/
def traverse_path (g : Graph) (orders : List Order) (cargo : List ℕ)
    (path : List ℕ) : ℚ × ℚ × List Order :=
  if path.isEmpty then (0, 0, orders)
  else
    let r := traverseLoop g cargo path 0 0 orders
    (r.1 / 60, r.2.1 / 1000, r.2.2)

/-- One iteration of the delivery loop of
`Simulator._execute_delivery_route` (simulator.py lines 192-221):
capacity-triggered depot return, travel (skipping unreachable stops),
then `load_order` (result ignored) and `order.delivered = True`. -/
def execStep (g : Graph) (pathFn : ℕ → ℕ → Bool → List ℕ) (capacity : ℚ)
    (depot_node : ℕ) (st : ExecState) (i : ℕ) : ExecState :=
  let order := st.orders.getD i dummyOrder
  let st1 :=
    if can_load st.orders st.cargo capacity order.weight then st
    else
      let has_fragile := decide (0 < (get_fragile_cargo st.orders st.cargo).length)
      let r := traverse_path g st.orders st.cargo
        (pathFn st.current_node depot_node has_fragile)
      { orders := r.2.2, cargo := [], current_node := depot_node,
        total_time_minutes := st.total_time_minutes + r.1,
        total_dist_km := st.total_dist_km + r.2.1 }
  let has_fragile := decide (0 < (get_fragile_cargo st1.orders st1.cargo).length)
  let path := pathFn st1.current_node order.node_id has_fragile
  if path.isEmpty then st1
  else
    let r := traverse_path g st1.orders st1.cargo path
    let cargo2 :=
      if can_load r.2.2 st1.cargo capacity order.weight then st1.cargo ++ [i]
      else st1.cargo
    let o2 := r.2.2.getD i dummyOrder
    { orders := r.2.2.set i { o2 with delivered := true },
      cargo := cargo2,
      current_node := order.node_id,
      total_time_minutes := st1.total_time_minutes + r.1,
      total_dist_km := st1.total_dist_km + r.2.1 }

/-- Final return-to-depot leg after the delivery loop. -/
def execFinal (g : Graph) (pathFn : ℕ → ℕ → Bool → List ℕ) (depot_node : ℕ)
    (st : ExecState) : ExecState :=
  let has_fragile := decide (0 < (get_fragile_cargo st.orders st.cargo).length)
  let r := traverse_path g st.orders st.cargo
    (pathFn st.current_node depot_node has_fragile)
  { st with
      orders := r.2.2
      total_time_minutes := st.total_time_minutes + r.1
      total_dist_km := st.total_dist_km + r.2.1 }

/-- Initial executor state: truck emptied (`unload_all`), vehicle at the
depot. -/
def execInit (orders : List Order) (depot_node : ℕ) : ExecState :=
  ⟨orders, [], depot_node, 0, 0⟩

/-- Full state evolution of `_execute_delivery_route` over a sequence of
order indices. -/
def execRun (g : Graph) (pathFn : ℕ → ℕ → Bool → List ℕ) (capacity : ℚ)
    (depot_node : ℕ) (orders : List Order) (sequence : List ℕ) : ExecState :=
  execFinal g pathFn depot_node
    (sequence.foldl (execStep g pathFn capacity depot_node) (execInit orders depot_node))

/-- Every vehicle state the executor passes through: the initial state,
the state after each delivery-loop iteration, and the state after the
final depot leg.  (Inside one iteration the cargo only ever takes the
values: previous cargo, `[]` after a depot unload, or the guarded
append performed by `load_order`; this is used by the capacity-invariant
proof.) -/
def execStates (g : Graph) (pathFn : ℕ → ℕ → Bool → List ℕ) (capacity : ℚ)
    (depot_node : ℕ) (orders : List Order) (sequence : List ℕ) : List ExecState :=
  (sequence.scanl (execStep g pathFn capacity depot_node) (execInit orders depot_node)) ++
    [execRun g pathFn capacity depot_node orders sequence]

/-- `Simulator._execute_delivery_route` (simulator.py lines 173-251):
runs the loop and assembles the result dict; the integrity average ranges
over the delivered members of the input sequence and defaults to `100.0`
when none were delivered. -/
def execute_delivery_route (g : Graph) (pathFn : ℕ → ℕ → Bool → List ℕ)
    (capacity : ℚ) (depot_node : ℕ) (mode : RouteMode) (orders : List Order)
    (sequence : List ℕ) : SimResult :=
  let st := execRun g pathFn capacity depot_node orders sequence
  let delivered := sequence.filter (fun i => (st.orders.getD i dummyOrder).delivered)
  let avg :=
    if delivered.isEmpty then (100 : ℚ)
    else (delivered.map (fun i => (st.orders.getD i dummyOrder).current_integrity)).sum /
      delivered.length
  ⟨mode, st.total_time_minutes, st.total_dist_km, avg, delivered.length⟩

/-- Meter/bad-meter analysis of a path in `Simulator._run_smart` step 1
(simulator.py lines 101-115): an edge counts as bad when its pavement is
bad or it is blocked. -/
def pathMeters (g : Graph) : List ℕ → ℚ × ℚ
  | [] => (0, 0)
  | [_] => (0, 0)
  | u :: v :: rest =>
      let r := pathMeters g (v :: rest)
      match g.findEdge u v with
      | none => r
      | some data =>
          (r.1 + data.length,
           if data.pavement_quality = Pav.bad ∨ data.road_block then r.2 + data.length
           else r.2)

/-- Scoring loop of `Simulator._run_smart` step 1 (simulator.py lines
94-131).  The fuzzy/neural collaborators are outside the core (spec §1,
§6); their only effect read back by the core is `order.fuzzy_priority`,
modelled by the arbitrary assignment `fp` — every theorem below holds for
every such assignment.  When a depot path contains any bad meters the code
calls `self.astar.check_if_bad_road_is_unavoidable`, a method that does
not exist on `AStarNavigator`, so Python raises `AttributeError`. -/
def scoreOrders (g : Graph) (h : ℕ → ℕ → ℚ) (fuel : ℕ) (fp : ℕ → ℚ)
    (depot_node : ℕ) : List Order → ℕ → Except PyErr (List Order)
  | [], _ => Except.ok []
  | o :: rest, idx =>
      let path := (get_path g h fuel depot_node o.node_id o.is_fragile).getD []
      let m := pathMeters g path
      if 0 < m.2 then Except.error PyErr.attributeError
      else
        match scoreOrders g h fuel fp depot_node rest (idx + 1) with
        | Except.error e => Except.error e
        | Except.ok os => Except.ok ({ o with fuzzy_priority := fp idx } :: os)

/-- `Simulator.run` in `"smart"` mode (simulator.py lines 52-70 and
85-145): reset integrity/delivered flags, score the orders, optimize with
`GeneticTSP(..., truck_capacity=30.0, generations=30)` (population 50),
and execute the winning sequence with A* pathing and `Truck(capacity=30.0)`.
Iterating a `None` best route would be Python's `TypeError`. -/
def run_smart (g : Graph) (h : ℕ → ℕ → ℚ) (fuel : ℕ) (rng : ℕ → ℕ) (c : ℕ)
    (fp : ℕ → ℚ) (orders : List Order) (depot_node : ℕ) : Except PyErr SimResult :=
  let orders0 := orders.map
    (fun o => { o with current_integrity := (100 : ℚ), delivered := false })
  match scoreOrders g h fuel fp depot_node orders0 0 with
  | Except.error e => Except.error e
  | Except.ok orders1 =>
      match solve rng c (fun s t f => (get_path_cost g fuel s t f).getD Cost.inf)
          orders1 depot_node 30 50 30 with
      | Except.error e => Except.error e
      | Except.ok (none, _) => Except.error PyErr.typeError
      | Except.ok (some best_indices, _) =>
          Except.ok (execute_delivery_route g
            (fun s t f => (get_path g h fuel s t f).getD []) 30 depot_node
            RouteMode.smart orders1 best_indices)

/-! ## Concrete networks and heuristics used in the statements

The Batteries rational operations are `@[irreducible]`; they are unsealed
here so that closed statements about the embedded algorithms can be
settled by kernel reduction (`decide`). -/

unseal Rat.add Rat.mul Rat.inv Rat.sub Rat.ofScientific

/-- `AStarNavigator._heuristic` computes the Euclidean distance
`sqrt(dx*dx + dy*dy)` between the stored node coordinates (astar.py lines
20-41; the `except` fallback to `0.0` is dead here since every modelled
node has coordinates).  Since `sqrt` has no exact rational form, a
heuristic function is characterised by this predicate: it is the
nonnegative square root of the squared coordinate distance on every node
pair of the graph.  The concrete graphs below have collinear nodes, where
the square root is exactly rational. -/
abbrev IsEuclidHeuristic (g : Graph) (h : ℕ → ℕ → ℚ) : Prop :=
  ∀ u ∈ g.nodes, ∀ v ∈ g.nodes,
    0 ≤ h u.nid v.nid ∧
    h u.nid v.nid * h u.nid v.nid = (u.x - v.x) * (u.x - v.x) + (u.y - v.y) * (u.y - v.y)

/-- A good, unblocked, traffic-free edge with the given travel time. -/
def plainEdge (len tt : ℚ) : EdgeData :=
  ⟨len, tt, 40, 0, Pav.good, false⟩

/-- Triangle network for C1: the direct edge `0 → 1` takes 10 time units;
the detour through node `2` takes 2; node `2` sits far away at `x = -100`,
so the Euclidean heuristic (in distance units, not time units) makes A*
pop the target along the direct edge first. -/
def c1Graph : Graph :=
  { nodes := [⟨0, 0, 0⟩, ⟨1, 10, 0⟩, ⟨2, -100, 0⟩],
    edges := [(0, 1, plainEdge 100 10), (0, 2, plainEdge 100 1), (2, 1, plainEdge 100 1)] }

/-- The Euclidean heuristic of `c1Graph`: all nodes lie on the x-axis, so
the distance is exactly `|dx|`. -/
def c1H : ℕ → ℕ → ℚ :=
  fun u v =>
    let x : ℕ → ℚ := fun n => if n == 0 then 0 else if n == 1 then 10 else -100
    |x u - x v|

/-- Two clusters `{0, 1}` and `{2, 3}` joined only by the blocked edge
`1 → 2` (the §8 end-to-end blocked-bridge scenario). -/
def c5Graph : Graph :=
  { nodes := [⟨0, 0, 0⟩, ⟨1, 1, 0⟩, ⟨2, 2, 0⟩, ⟨3, 3, 0⟩],
    edges := [(0, 1, plainEdge 100 1),
              (1, 2, ⟨100, 1, 40, 0, Pav.good, true⟩),
              (2, 3, plainEdge 100 1)] }

/-- Euclidean heuristic of `c5Graph` (collinear nodes on the x-axis). -/
def c5H : ℕ → ℕ → ℚ :=
  fun u v =>
    let x : ℕ → ℚ := fun n => (n : ℚ)
    |x u - x v|

/-! ## C1 -/

/-- C1, counterexample.  On `c1Graph` with its Euclidean heuristic,
`get_path(0, 1, False)` returns the direct path `[0, 1]`, whose summed
edge cost is `10`, while `get_path_cost(0, 1, False)` returns `2` (the
detour cost found by Dijkstra): the heuristic is expressed in coordinate
units, not in the travel-time units of the weight function, so it is
inadmissible and A* commits to a suboptimal path. -/
theorem c1_counterexample :
    IsEuclidHeuristic c1Graph c1H ∧
    get_path c1Graph c1H 100 0 1 false = some [0, 1] ∧
    path_cost_sum c1Graph false [0, 1] = Cost.fin 10 ∧
    get_path_cost c1Graph 100 0 1 false = some (Cost.fin 2) ∧
    path_cost_sum c1Graph false [0, 1] ≠ Cost.fin 2 := by
  decide

/-- C1, amended: `get_path` and `get_path_cost` evaluate every edge with
the identical cost function (travel time, times pavement penalty `5000.0`
for a fragile trip over bad pavement and `1.4` otherwise, times
`1 + traffic_level`, and `inf` on a blocked edge), even though the two
methods spell the function out separately; the sum of that cost function
over the path returned by `get_path` can nevertheless strictly exceed
`get_path_cost`, because `get_path` runs A* with an inadmissible Euclidean
heuristic while `get_path_cost` runs Dijkstra. -/
theorem c1_amended : ∀ (is_fragile : Bool) (d : EdgeData),
    weight_function_get_path is_fragile d = weight_function_get_path_cost is_fragile d := by
  intro f d
  rfl

/-! ## C5 -/

/-- C5, counterexample.  On the two-cluster network whose only bridge
`1 → 2` is blocked, `get_path(0, 3, False)` does not return the empty
list: NetworkX treats an infinite-weight edge as traversable (only a
`None` weight hides an edge), so A* returns the path `[0, 1, 2, 3]`
crossing the blocked edge. -/
theorem c5_counterexample :
    IsEuclidHeuristic c5Graph c5H ∧
    (c5Graph.findEdge 1 2).map EdgeData.road_block = some true ∧
    get_path c5Graph c5H 100 0 3 false = some [0, 1, 2, 3] := by
  decide

/-- Helper: `inf` absorbs float addition on the right. -/
theorem Cost.add_inf (a : Cost) : a.add Cost.inf = Cost.inf := by
  cases a <;> rfl

/-- Helper: `inf` absorbs float addition on the left. -/
theorem Cost.inf_add (a : Cost) : Cost.inf.add a = Cost.inf := by
  cases a <;> rfl

/-- Helper: a path that crosses a blocked edge has infinite summed cost. -/
theorem path_cost_sum_blocked (g : Graph) (f : Bool) (u v : ℕ) (t : List ℕ)
    (d : EdgeData) (hedge : g.findEdge u v = some d) (hblock : d.road_block = true) :
    ∀ s : List ℕ, path_cost_sum g f (s ++ u :: v :: t) = Cost.inf := by
  intro s
  induction s with
  | nil =>
      show (match g.findEdge u v with
        | some d => weight_function_get_path f d
        | none => Cost.inf).add (path_cost_sum g f (v :: t)) = Cost.inf
      rw [hedge]
      have hw : weight_function_get_path f d = Cost.inf := by
        simp [weight_function_get_path, hblock]
      show (weight_function_get_path f d).add (path_cost_sum g f (v :: t)) = Cost.inf
      rw [hw, Cost.inf_add]
  | cons x s2 ih =>
      obtain ⟨y, ys, hys⟩ : ∃ y ys, s2 ++ u :: v :: t = y :: ys := by
        cases s2 with
        | nil => exact ⟨u, v :: t, rfl⟩
        | cons a b => exact ⟨a, b ++ u :: v :: t, by simp⟩
      show path_cost_sum g f (x :: (s2 ++ u :: v :: t)) = Cost.inf
      rw [hys]
      show (match g.findEdge x y with
        | some d => weight_function_get_path f d
        | none => Cost.inf).add (path_cost_sum g f (y :: ys)) = Cost.inf
      rw [← hys, ih, Cost.add_inf]

/-- C5, amended: a blocked edge has infinite weight, so every path
containing a blocked edge has infinite summed cost — hence any path whose
cost is finite avoids all blocked edges; but when a blocked edge is the
only connection between two clusters, `get_path` returns the (infinite
cost) path through it rather than an empty list, and `get_path_cost`
returns `+inf`; neither raises. -/
theorem c5_amended :
    (∀ (g : Graph) (f : Bool) (p : List ℕ) (u v : ℕ) (d : EdgeData),
        [u, v].IsInfix p → g.findEdge u v = some d → d.road_block = true →
        path_cost_sum g f p = Cost.inf) ∧
    get_path c5Graph c5H 100 0 3 false = some [0, 1, 2, 3] ∧
    get_path_cost c5Graph 100 0 3 false = some Cost.inf := by
  refine ⟨?_, by decide, by decide⟩
  intro g f p u v d hinf hedge hblock
  obtain ⟨s, t, hst⟩ := hinf
  have hst2 : s ++ u :: v :: t = p := by simpa using hst
  rw [← hst2]
  exact path_cost_sum_blocked g f u v t d hedge hblock s

/-- C5 witness: the general clause of `c5_amended` applied to the blocked
bridge edge of `c5Graph` itself. -/
theorem c5_witness : path_cost_sum c5Graph false [0, 1, 2, 3] = Cost.inf :=
  c5_amended.1 c5Graph false [0, 1, 2, 3] 1 2 ⟨100, 1, 40, 0, Pav.good, true⟩
    ⟨[0], [3], by decide⟩ (by decide) (by decide)

/-! ## C2 -/

/-- Orders for the C2 counterexample: a fragile then a non-fragile order,
both light enough that no depot return intervenes. -/
def c2o0 : Order := ⟨0, 1, 60, 10, true, 0, 5, Risk.unknown, 100, false⟩

def c2o1 : Order := ⟨1, 2, 60, 10, false, 0, 5, Risk.unknown, 100, false⟩

/-- C2, counterexample.  With a fragile order already aboard, the fitness
evaluation of `[0, 1]` passes `is_fragile = False` for the second leg
(the flag is just `order.is_fragile`), while the specification's
contamination rule demands `True`. -/
theorem c2_counterexample :
    fitness_trip_flags [c2o0, c2o1] 0 30 [0, 1] = [true, false] ∧
    spec_trip_flags [c2o0, c2o1] 30 [0, 1] 0 false = [true, true] ∧
    fitness_trip_flags [c2o0, c2o1] 0 30 [0, 1] ≠
      spec_trip_flags [c2o0, c2o1] 30 [0, 1] 0 false := by
  decide

/-- C2, amended: in `_calculate_fitness` the fragility flag passed to
`get_path_cost` for the leg to each order is exactly that order's own
`is_fragile` field, independent of the capacity state and of any fragile
cargo already aboard (and the depot-return and final legs always pass
`is_fragile=False`, visible in the definition); cargo contamination is
not consulted by the optimizer. -/
theorem c2_amended : ∀ (costFn : ℕ → ℕ → Bool → Cost) (orders : List Order)
    (depot_node : ℕ) (truck_capacity : ℚ) (total_orders : ℕ)
    (individual : List ℕ) (position : ℕ) (st : FitState),
    (fitnessLoop costFn orders depot_node truck_capacity total_orders
      individual position st).2 =
      individual.map (fun i => (orders.getD i dummyOrder).is_fragile) := by
  intro costFn orders depot cap total ind
  induction ind with
  | nil => intro position st; rfl
  | cons i rest ih =>
      intro position st
      show (fitnessLoop costFn orders depot cap total (i :: rest) position st).2 = _
      unfold fitnessLoop
      simp only [List.map_cons]
      rw [ih]

/-! ## C3: sampling and solve lemmas -/

theorem range_one : List.range 1 = [0] := by decide

/-- `random.sample` over a one-element range is forced: it returns `[0]`
for every stream. -/
theorem sampleGo_one (rng : ℕ → ℕ) (c : ℕ) : sampleGo rng c 1 [0] = ([0], c + 1) := by
  simp [sampleGo, Nat.mod_one]

theorem sampleRange_one (rng : ℕ → ℕ) (c : ℕ) :
    sampleRange rng c 1 1 = Except.ok ([0], c + 1) := by
  simp [sampleRange, range_one, sampleGo_one]

/-- With a single order, the initial population is forced to be
`population_size` copies of the route `[0]`. -/
theorem initPop_one (rng : ℕ → ℕ) : ∀ (p c : ℕ),
    initPop rng 1 p c = (List.replicate p [0], c + p) := by
  intro p
  induction p with
  | zero => intro c; rfl
  | succ p ih =>
      intro c
      simp only [initPop, sampleRange_one, ih, List.replicate_succ]
      congr 1
      omega

theorem getD_replicate {α : Type} (n i : ℕ) (a dflt : α) (h : i < n) :
    (List.replicate n a).getD i dflt = a := by
  rw [List.getD_eq_getElem _ _ (by simpa using h)]
  exact List.getElem_replicate ..

/-- Specification of the sampling loop: under `k ≤ |pool|` it produces
`k` elements of the pool, advances the stream counter by `k`, and
preserves distinctness. -/
theorem sampleGo_spec (rng : ℕ → ℕ) : ∀ (k : ℕ) (pool : List ℕ) (c : ℕ),
    k ≤ pool.length →
    (sampleGo rng c k pool).1.length = k ∧
    (sampleGo rng c k pool).2 = c + k ∧
    (∀ x ∈ (sampleGo rng c k pool).1, x ∈ pool) ∧
    (pool.Nodup → (sampleGo rng c k pool).1.Nodup) := by
  intro k
  induction k with
  | zero =>
      intro pool c _
      exact ⟨rfl, rfl, by simp [sampleGo], fun _ => by simp [sampleGo]⟩
  | succ k ih =>
      intro pool c hk
      have hlen : 0 < pool.length := lt_of_lt_of_le (Nat.succ_pos k) hk
      have hilt : rng c % pool.length < pool.length := Nat.mod_lt _ hlen
      have hget : pool.getD (rng c % pool.length) 0 = pool[rng c % pool.length] :=
        List.getD_eq_getElem _ _ hilt
      have herase : (pool.eraseIdx (rng c % pool.length)).length = pool.length - 1 := by
        rw [List.length_eraseIdx]
        simp [hilt]
      have hk2 : k ≤ (pool.eraseIdx (rng c % pool.length)).length := by omega
      obtain ⟨h1, h2, h3, h4⟩ := ih (pool.eraseIdx (rng c % pool.length)) (c + 1) hk2
      have hx_mem : pool.getD (rng c % pool.length) 0 ∈ pool := by
        rw [hget]; exact List.getElem_mem hilt
      have hx_not : pool.Nodup → pool.getD (rng c % pool.length) 0 ∉
          pool.eraseIdx (rng c % pool.length) := by
        intro hnd
        rw [hget, List.eraseIdx_eq_take_drop_succ]
        have hdecomp : pool = pool.take (rng c % pool.length) ++
            pool[rng c % pool.length] :: pool.drop (rng c % pool.length + 1) := by
          conv_lhs => rw [← List.take_append_drop (rng c % pool.length) pool]
          rw [List.drop_eq_getElem_cons hilt]
        rw [hdecomp] at hnd
        exact (List.nodup_cons.mp (List.nodup_middle.mp hnd)).1
      refine ⟨?_, ?_, ?_, ?_⟩
      · simp only [sampleGo, List.length_cons]; rw [h1]
      · simp only [sampleGo]; rw [h2]; omega
      · simp only [sampleGo]
        intro x hx
        rcases List.mem_cons.mp hx with h | h
        · rw [h]; exact hx_mem
        · exact List.eraseIdx_subset _ _ (h3 x h)
      · intro hnd
        simp only [sampleGo]
        exact List.nodup_cons.mpr ⟨fun hmem => hx_not hnd (h3 _ hmem),
          h4 (hnd.eraseIdx _)⟩

/-- `random.sample(range(n), k)` succeeds exactly when `k ≤ n`, with
distinct in-range elements. -/
theorem sampleRange_ok (rng : ℕ → ℕ) (c n k : ℕ) (h : k ≤ n) :
    sampleRange rng c n k = Except.ok (sampleGo rng c k (List.range n)) ∧
    (sampleGo rng c k (List.range n)).1.length = k ∧
    (sampleGo rng c k (List.range n)).2 = c + k ∧
    (∀ x ∈ (sampleGo rng c k (List.range n)).1, x < n) ∧
    (sampleGo rng c k (List.range n)).1.Nodup := by
  have hspec := sampleGo_spec rng k (List.range n) c (by simpa using h)
  refine ⟨by simp [sampleRange, Nat.not_lt.mpr h], hspec.1, hspec.2.1, ?_,
    hspec.2.2.2 (List.nodup_range _)⟩
  intro x hx
  exact List.mem_range.mp (hspec.2.2.1 x hx)

theorem sampleRange_err (rng : ℕ → ℕ) (c n k : ℕ) (h : n < k) :
    sampleRange rng c n k = Except.error PyErr.valueError := by
  simp [sampleRange, h]

/-- Fold steps that always keep either the accumulator or the new element
preserve any predicate that holds of the start and of every element. -/
theorem foldl_choice {P : ℕ → Prop} (g : ℕ → ℕ → ℕ)
    (hg : ∀ b i, g b i = b ∨ g b i = i) :
    ∀ (l : List ℕ) (init : ℕ), P init → (∀ x ∈ l, P x) → P (l.foldl g init) := by
  intro l
  induction l with
  | nil => intro init h _; exact h
  | cons a t ih =>
      intro init hinit hmem
      show P ((a :: t).foldl g init)
      rw [List.foldl_cons]
      refine ih (g init a) ?_ (fun x hx => hmem x (List.mem_cons_of_mem a hx))
      rcases hg init a with h | h
      · rw [h]; exact hinit
      · rw [h]; exact hmem a (List.mem_cons_self a t)

/-- On a population of identical one-order routes, tournament selection
always returns `[0]` and consumes three stream values. -/
theorem tournament_replicate (rng : ℕ → ℕ) (c n : ℕ) (scores : List ℚ)
    (h3 : 3 ≤ n) :
    tournament rng c (List.replicate n [0]) scores = Except.ok ([0], c + 3) := by
  obtain ⟨hok, hlen, hctr, hmem, -⟩ := sampleRange_ok rng c n 3 h3
  unfold tournament
  rw [List.length_replicate, hok]
  have hbest : ((sampleGo rng c 3 (List.range n)).1.drop 1).foldl
      (fun best ix => if scores.getD best 0 < scores.getD ix 0 then ix else best)
      ((sampleGo rng c 3 (List.range n)).1.getD 0 0) < n := by
    refine foldl_choice (P := fun m => m < n)
      (fun best ix => if scores.getD best 0 < scores.getD ix 0 then ix else best)
      (fun b i => by
        by_cases h : scores.getD b 0 < scores.getD i 0
        · right; exact if_pos h
        · left; exact if_neg h) _ _ ?_ ?_
    · have hne : (sampleGo rng c 3 (List.range n)).1 ≠ [] := by
        intro hnil
        rw [hnil] at hlen
        simp at hlen
      obtain ⟨y, ys, hys⟩ := List.exists_cons_of_ne_nil hne
      rw [hys]
      exact hmem y (by rw [hys]; exact List.mem_cons_self y ys)
    · intro x hx
      exact hmem x (List.mem_of_mem_drop hx)
  dsimp only
  rw [hctr, getD_replicate n _ [0] [] hbest]

/-- `_crossover` on two single-gene parents: `random.sample(range(1), 2)`
raises `ValueError`. -/
theorem crossover_one (rng : ℕ → ℕ) (c : ℕ) (p2 : List ℕ) :
    crossover rng c [0] p2 = Except.error PyErr.valueError := by
  unfold crossover
  rw [show ([0] : List ℕ).length = 1 from rfl, sampleRange_err rng c 1 2 (by omega)]

/-- First reproduction round over a single-order population: both
tournaments return `[0]`, then the crossover raises. -/
theorem reproduce_one (rng : ℕ → ℕ) (c n fuel : ℕ) (scores : List ℚ)
    (next_pop : List (List ℕ)) (h3 : 3 ≤ n) (hlt : next_pop.length < n)
    (hfuel : 0 < fuel) :
    reproduce rng (List.replicate n [0]) scores n fuel c next_pop =
      Except.error PyErr.valueError := by
  obtain ⟨fuel, rfl⟩ := Nat.exists_eq_succ_of_ne_zero (Nat.pos_iff_ne_zero.mp hfuel)
  unfold reproduce
  simp only [hlt, if_pos]
  rw [tournament_replicate rng c n scores h3]
  dsimp only
  rw [tournament_replicate rng (c + 3) n scores h3]
  dsimp only
  rw [crossover_one]

/-- One-order `solve`: the first generation reaches `_crossover` with
two single-gene parents and dies with `ValueError`. -/
theorem solveGens_one (rng : ℕ → ℕ) (costFn : ℕ → ℕ → Bool → Cost)
    (orders : List Order) (depot : ℕ) (cap : ℚ) (gens c : ℕ)
    (best : ℚ × Option (List ℕ)) (hg : 0 < gens) :
    solveGens rng costFn orders depot cap 50 gens c (List.replicate 50 [0]) best =
      Except.error PyErr.valueError := by
  obtain ⟨g, rfl⟩ := Nat.exists_eq_succ_of_ne_zero (Nat.pos_iff_ne_zero.mp hg)
  unfold solveGens
  have hnext : (List.take 2 ((((((List.replicate 50 ([0] : List ℕ)).map
      (calculate_fitness costFn orders depot cap)).zip
        (List.replicate 50 ([0] : List ℕ))).mergeSort
          (fun x y => decide (y.1 ≤ x.1))).map
            (fun p : ℚ × List ℕ => p.2)))).length < 50 := by
    rw [List.length_take, List.length_map, List.length_mergeSort, List.length_zip]
    simp
  dsimp only
  rw [reproduce_one rng c 50 50 _ _ (by omega) hnext (by omega)]

/-- Shared helper: one-order `solve` at the simulator parameters
(population 50, 30 generations) raises, for every stream and oracle. -/
theorem solve_single_err (rng : ℕ → ℕ) (c : ℕ) (costFn : ℕ → ℕ → Bool → Cost)
    (o : Order) (depot : ℕ) (cap : ℚ) :
    solve rng c costFn [o] depot cap 50 30 = Except.error PyErr.valueError := by
  unfold solve
  simp only [List.isEmpty_cons, Bool.false_eq_true, if_false, List.length_cons,
    List.length_nil]
  rw [initPop_one rng 50 c]
  exact solveGens_one rng costFn [o] depot cap 30 (c + 50) (-1, none) (by omega)

/-- C3: `solve` honours the empty-input contract but raises `ValueError`
on a single order, for every random stream and every path-cost oracle —
the crossover samples two distinct cut points from `range(1)`.  (`50`/`30`
are the population size and generation count the simulator passes.) -/
theorem c3_solve_contract :
    (∀ (rng : ℕ → ℕ) (c : ℕ) (costFn : ℕ → ℕ → Bool → Cost) (depot : ℕ)
        (cap : ℚ) (psz gens : ℕ),
        solve rng c costFn [] depot cap psz gens = Except.ok (some [], c)) ∧
    (∀ (rng : ℕ → ℕ) (c : ℕ) (costFn : ℕ → ℕ → Bool → Cost) (o : Order)
        (depot : ℕ) (cap : ℚ),
        solve rng c costFn [o] depot cap 50 30 = Except.error PyErr.valueError) := by
  constructor
  · intro rng c costFn depot cap psz gens
    rfl
  · intro rng c costFn o depot cap
    exact solve_single_err rng c costFn o depot cap

/-! ## C4 -/

/-- Two-node network with good, unblocked roads both ways, used as the C4
failing input. -/
def c4Graph : Graph :=
  { nodes := [⟨0, 0, 0⟩, ⟨1, 1, 0⟩],
    edges := [(0, 1, plainEdge 100 1), (1, 0, plainEdge 100 1)] }

/-- The single order of the C4 failing input (non-fragile, 10 kg, at
node 1). -/
def c4Order : Order := ⟨0, 1, 60, 10, false, 0, 0, Risk.unknown, 100, false⟩

/-- C4: a smart-mode `run` on a well-formed network with a single order is
not handled locally — it propagates the `ValueError` raised inside
`GeneticTSP._crossover`, for every heuristic, every priority scoring,
and every random stream. -/
theorem c4_run_smart_raises (h : ℕ → ℕ → ℚ) (fp : ℕ → ℚ) (rng : ℕ → ℕ) (c : ℕ) :
    run_smart c4Graph h 50 rng c fp [c4Order] 0 = Except.error PyErr.valueError := by
  have step1 : run_smart c4Graph h 50 rng c fp [c4Order] 0 =
      (match solve rng c (fun s t f => (get_path_cost c4Graph 50 s t f).getD Cost.inf)
          [⟨0, 1, 60, 10, false, 0, fp 0, Risk.unknown, 100, false⟩] 0 30 50 30 with
        | Except.error e => Except.error e
        | Except.ok (none, _) => Except.error PyErr.typeError
        | Except.ok (some best_indices, _) =>
            Except.ok (execute_delivery_route c4Graph
              (fun s t f => (get_path c4Graph h 50 s t f).getD []) 30 0
              RouteMode.smart [⟨0, 1, 60, 10, false, 0, fp 0, Risk.unknown, 100, false⟩]
              best_indices)) := rfl
  rw [step1, solve_single_err]

/-! ## C9: crossover and mutation preserve permutations -/

/-- Number of free slots. -/
def countNone (l : List (Option ℕ)) : ℕ :=
  l.countP (fun s => s.isNone)

theorem scanFree_spec : ∀ (l : List (Option ℕ)) (i : ℕ), none ∈ l →
    ∃ j, scanFree l i = some j ∧ i ≤ j ∧ l[j - i]? = some none ∧
      ∀ m, m < j - i → l[m]? ≠ some none := by
  intro l
  induction l with
  | nil => intro i h; simp at h
  | cons x t ih =>
      intro i hmem
      cases x with
      | none =>
          exact ⟨i, rfl, le_refl i, by simp, fun m hm => by omega⟩
      | some a =>
          have hmem2 : none ∈ t := by
            rcases List.mem_cons.mp hmem with h | h
            · exact absurd h.symm (by simp)
            · exact h
          obtain ⟨j, hscan, hij, hslot, hbefore⟩ := ih (i + 1) hmem2
          refine ⟨j, hscan, by omega, ?_, ?_⟩
          · have : j - i = (j - (i + 1)) + 1 := by omega
            rw [this]
            simpa using hslot
          · intro m hm
            cases m with
            | zero => simp
            | succ m =>
                have : m < j - (i + 1) := by omega
                simpa using hbefore m this

/-- Under the scan invariant (no free slot below `ptr`), `nextNone` finds
the globally first free slot whenever one exists. -/
theorem nextNone_spec (child : List (Option ℕ)) (ptr : ℕ)
    (hfree : none ∈ child) (hinv : ∀ k, k < ptr → child[k]? ≠ some none) :
    ∃ j, nextNone child ptr = some j ∧ child[j]? = some none ∧
      ∀ k, k < j → child[k]? ≠ some none := by
  have hdropmem : none ∈ child.drop ptr := by
    have hsplit : child = child.take ptr ++ child.drop ptr := (List.take_append_drop ..).symm
    have : none ∉ child.take ptr := by
      intro htk
      obtain ⟨m, hm⟩ := List.mem_iff_getElem?.mp htk
      rw [List.getElem?_take] at hm
      by_cases hc : m < ptr
      · rw [if_pos hc] at hm
        exact hinv m hc hm
      · rw [if_neg hc] at hm
        exact absurd hm (by simp)
    rcases List.mem_append.mp (hsplit ▸ hfree) with h | h
    · exact absurd h this
    · exact h
  obtain ⟨j, hscan, hij, hslot, hbefore⟩ := scanFree_spec (child.drop ptr) ptr hdropmem
  rw [List.getElem?_drop] at hslot
  refine ⟨j, hscan, by rw [show ptr + (j - ptr) = j from by omega] at hslot; exact hslot, ?_⟩
  intro k hk
  by_cases hkp : k < ptr
  · exact hinv k hkp
  · have h2 := hbefore (k - ptr) (by omega)
    rw [List.getElem?_drop, show ptr + (k - ptr) = k from by omega] at h2
    exact h2

theorem set_reduceOption_perm : ∀ (child : List (Option ℕ)) (j : ℕ) (g : ℕ),
    child[j]? = some none →
    (child.set j (some g)).reduceOption.Perm (g :: child.reduceOption) := by
  intro child
  induction child with
  | nil => intro j g h; simp at h
  | cons x t ih =>
      intro j g h
      cases j with
      | zero =>
          have hx : x = none := by simpa using h
          subst hx
          simp only [List.set_cons_zero, List.reduceOption_cons_of_some,
            List.reduceOption_cons_of_none]
          exact List.Perm.refl _
      | succ j =>
          have ht : t[j]? = some none := by simpa using h
          rw [List.set_cons_succ]
          cases x with
          | none =>
              simp only [List.reduceOption_cons_of_none]
              exact ih j g ht
          | some a =>
              simp only [List.reduceOption_cons_of_some]
              exact ((ih j g ht).cons a).trans (List.Perm.swap g a _)

theorem set_countNone : ∀ (child : List (Option ℕ)) (j : ℕ) (g : ℕ),
    child[j]? = some none →
    countNone child = countNone (child.set j (some g)) + 1 := by
  intro child
  induction child with
  | nil => intro j g h; simp at h
  | cons x t ih =>
      intro j g h
      cases j with
      | zero =>
          have hx : x = none := by simpa using h
          subst hx
          simp [countNone, List.countP_cons]
      | succ j =>
          have ht : t[j]? = some none := by simpa using h
          rw [List.set_cons_succ]
          simp only [countNone, List.countP_cons] at ih ⊢
          rw [ih j g ht]
          omega

/-- A free slot exists exactly when `countNone` is positive. -/
theorem none_mem_of_countNone_pos (child : List (Option ℕ))
    (h : 0 < countNone child) : none ∈ child := by
  by_contra hmem
  have : countNone child = 0 := by
    simp only [countNone]
    rw [List.countP_eq_zero]
    intro a ha
    cases a with
    | none => exact absurd ha hmem
    | some _ => simp
  omega

/-- Specification of the gene-placement loop: when the number of free
slots equals the number of genes to place, the loop never raises and the
placed genes join the occupied slots up to permutation. -/
theorem placeAll_spec (slice : List ℕ) : ∀ (gs : List ℕ) (child : List (Option ℕ)) (ptr : ℕ),
    countNone child = (gs.filter (fun g => decide (g ∉ slice))).length →
    (∀ k, k < ptr → child[k]? ≠ some none) →
    ∃ child2, placeAll slice gs ptr child = Except.ok child2 ∧
      child2.reduceOption.Perm ((gs.filter (fun g => decide (g ∉ slice))) ++ child.reduceOption) := by
  intro gs
  induction gs with
  | nil =>
      intro child ptr _ _
      exact ⟨child, rfl, by simp⟩
  | cons g rest ih =>
      intro child ptr hcount hinv
      by_cases hmem : g ∈ slice
      · have hfilter : (g :: rest).filter (fun g => decide (g ∉ slice)) =
            rest.filter (fun g => decide (g ∉ slice)) := by
          simp [List.filter_cons, hmem]
        rw [hfilter] at hcount
        obtain ⟨child2, hok, hperm⟩ := ih child ptr hcount hinv
        refine ⟨child2, ?_, ?_⟩
        · unfold placeAll
          rw [if_pos hmem]
          exact hok
        · rw [hfilter]
          exact hperm
      · have hfilter : (g :: rest).filter (fun g => decide (g ∉ slice)) =
            g :: rest.filter (fun g => decide (g ∉ slice)) := by
          simp [List.filter_cons, hmem]
        rw [hfilter] at hcount
        have hpos : 0 < countNone child := by rw [hcount]; simp
        obtain ⟨j, hnext, hslot, hbefore⟩ :=
          nextNone_spec child ptr (none_mem_of_countNone_pos child hpos) hinv
        have hcount2 : countNone (child.set j (some g)) =
            (rest.filter (fun g => decide (g ∉ slice))).length := by
          have hstep := set_countNone child j g hslot
          simp only [List.length_cons] at hcount
          omega
        have hinv2 : ∀ k, k < j → (child.set j (some g))[k]? ≠ some none := by
          intro k hk
          rw [List.getElem?_set]
          rw [if_neg (by omega)]
          exact hbefore k hk
        obtain ⟨child2, hok, hperm⟩ := ih (child.set j (some g)) j hcount2 hinv2
        refine ⟨child2, ?_, ?_⟩
        · unfold placeAll
          rw [if_neg hmem, hnext]
          exact hok
        · rw [hfilter]
          have hstep := set_reduceOption_perm child j g hslot
          refine hperm.trans ?_
          refine (List.Perm.append_left _ hstep).trans ?_
          exact List.perm_middle

theorem countNone_replicate (k : ℕ) : countNone (List.replicate k none) = k := by
  induction k with
  | zero => rfl
  | succ k ih => simp [countNone, List.replicate_succ, List.countP_cons] at ih ⊢; omega

theorem countNone_map_some (l : List ℕ) : countNone (l.map some) = 0 := by
  induction l with
  | nil => rfl
  | cons a t ih => simp [countNone, List.map_cons, List.countP_cons] at ih ⊢

theorem reduceOption_replicate_none (k : ℕ) :
    (List.replicate k (none : Option ℕ)).reduceOption = [] := by
  induction k with
  | zero => rfl
  | succ k ih => rw [List.replicate_succ, List.reduceOption_cons_of_none, ih]

/-- Swap-of-two-positions permutation lemma, head form. -/
theorem getD_set_cons_perm : ∀ (t : List ℕ) (j : ℕ) (x : ℕ), j < t.length →
    (t.getD j 0 :: t.set j x).Perm (x :: t) := by
  intro t
  induction t with
  | nil => intro j x h; simp at h
  | cons y s ih =>
      intro j x h
      cases j with
      | zero =>
          simp only [List.getD_cons_zero, List.set_cons_zero]
          exact List.Perm.swap x y s
      | succ j =>
          have hj : j < s.length := by simpa using h
          simp only [List.getD_cons_succ, List.set_cons_succ]
          exact (List.Perm.swap y (s.getD j 0) (s.set j x)).trans
            (((ih j x hj).cons y).trans (List.Perm.swap x y s))

/-- The double-`set` swap of `_mutate` is a permutation. -/
theorem set_swap_perm : ∀ (l : List ℕ) (i j : ℕ), i < l.length → j < l.length →
    ((l.set i (l.getD j 0)).set j (l.getD i 0)).Perm l := by
  intro l
  induction l with
  | nil => intro i j hi _; simp at hi
  | cons x t ih =>
      intro i j hi hj
      cases i with
      | zero =>
          cases j with
          | zero => simp
          | succ j =>
              have hjt : j < t.length := by simpa using hj
              simp only [List.getD_cons_zero, List.getD_cons_succ, List.set_cons_zero,
                List.set_cons_succ]
              exact getD_set_cons_perm t j x hjt
      | succ i =>
          have hit : i < t.length := by simpa using hi
          cases j with
          | zero =>
              simp only [List.getD_cons_zero, List.getD_cons_succ, List.set_cons_zero,
                List.set_cons_succ]
              exact getD_set_cons_perm t i x hit
          | succ j =>
              have hjt : j < t.length := by simpa using hj
              simp only [List.getD_cons_succ, List.set_cons_succ]
              exact (ih i j hit hjt).cons x

/-- `_mutate` never raises on routes of length at least 2 and returns a
permutation of its input. -/
theorem mutate_perm (rng : ℕ → ℕ) (c : ℕ) (l : List ℕ) (h2 : 2 ≤ l.length) :
    ∃ l2 c2, mutate rng c l = Except.ok (l2, c2) ∧ l2.Perm l := by
  have hrb : randBelowTenth rng c = (rng c % 10 == 0, c + 1) := rfl
  by_cases hdraw : (rng c % 10 == 0) = true
  · obtain ⟨hok, hlen, hctr, hmem, -⟩ := sampleRange_ok rng (c + 1) l.length 2 h2
    obtain ⟨a, b, hab⟩ := List.length_eq_two.mp hlen
    have ha : a < l.length := hmem a (by rw [hab]; simp)
    have hbb : b < l.length := hmem b (by rw [hab]; simp)
    refine ⟨(l.set a (l.getD b 0)).set b (l.getD a 0), c + 1 + 2, ?_,
      set_swap_perm l a b ha hbb⟩
    unfold mutate
    rw [hrb, hdraw]
    dsimp only
    rw [hok]
    dsimp only
    rw [hab, hctr]
    rfl
  · have hb : (rng c % 10 == 0) = false := by
      revert hdraw
      cases rng c % 10 == 0 <;> simp
    refine ⟨l, c + 1, ?_, List.Perm.refl l⟩
    unfold mutate
    rw [hrb, hb]

theorem reduceOption_map_some (l : List ℕ) : (l.map some).reduceOption = l := by
  induction l with
  | nil => rfl
  | cons a t ih => rw [List.map_cons, List.reduceOption_cons_of_some, ih]

/-- `_crossover` on two permutations of the same nodup index list never
raises and returns a permutation of that list. -/
theorem crossover_perm (rng : ℕ → ℕ) (c : ℕ) (p1 p2 : List ℕ)
    (h2 : 2 ≤ p1.length) (hnd : p1.Nodup) (hp : p2.Perm p1) :
    ∃ child c2, crossover rng c p1 p2 = Except.ok (child, c2) ∧ child.Perm p1 := by
  obtain ⟨hok, hlen, hctr, hmem, hnodup⟩ := sampleRange_ok rng c p1.length 2 h2
  obtain ⟨a0, b0, hl⟩ := List.length_eq_two.mp hlen
  have hne : a0 ≠ b0 := by
    rw [hl] at hnodup
    have := (List.nodup_cons.mp hnodup).1
    intro heq
    exact this (by rw [heq]; exact List.mem_cons_self b0 [])
  have ha0 : a0 < p1.length := hmem a0 (by rw [hl]; simp)
  have hb0 : b0 < p1.length := hmem b0 (by rw [hl]; simp)
  have hstlt : min a0 b0 < max a0 b0 := by omega
  have hsplt : max a0 b0 < p1.length := by omega
  have hslice_len : ((p1.drop (min a0 b0)).take (max a0 b0 - min a0 b0)).length =
      max a0 b0 - min a0 b0 := by
    rw [List.length_take, List.length_drop]
    omega
  have hdecomp : p1 = p1.take (min a0 b0) ++
      ((p1.drop (min a0 b0)).take (max a0 b0 - min a0 b0) ++ p1.drop (max a0 b0)) := by
    conv_lhs => rw [← List.take_append_drop (min a0 b0) p1,
      ← List.take_append_drop (max a0 b0 - min a0 b0) (p1.drop (min a0 b0))]
    rw [List.drop_drop, show min a0 b0 + (max a0 b0 - min a0 b0) = max a0 b0 from by omega]
  have hndsplit : (p1.take (min a0 b0)).Nodup ∧
      ((p1.drop (min a0 b0)).take (max a0 b0 - min a0 b0)).Nodup ∧
      (p1.take (min a0 b0)).Disjoint
        ((p1.drop (min a0 b0)).take (max a0 b0 - min a0 b0) ++ p1.drop (max a0 b0)) ∧
      ((p1.drop (min a0 b0)).take (max a0 b0 - min a0 b0)).Disjoint (p1.drop (max a0 b0)) := by
    have hnd2 := hnd
    rw [hdecomp, List.nodup_append] at hnd2
    obtain ⟨hA, hrest, hdisjA⟩ := hnd2
    rw [List.nodup_append] at hrest
    exact ⟨hA, hrest.1, hdisjA, hrest.2.2⟩
  have hfiltA : (p1.take (min a0 b0)).filter
      (fun g => decide (g ∉ (p1.drop (min a0 b0)).take (max a0 b0 - min a0 b0))) =
      p1.take (min a0 b0) := by
    rw [List.filter_eq_self]
    intro x hx
    have hnotin : x ∉ (p1.drop (min a0 b0)).take (max a0 b0 - min a0 b0) := by
      intro hxs
      exact hndsplit.2.2.1 hx (List.mem_append.mpr (Or.inl hxs))
    exact decide_eq_true hnotin
  have hfiltB : (p1.drop (max a0 b0)).filter
      (fun g => decide (g ∉ (p1.drop (min a0 b0)).take (max a0 b0 - min a0 b0))) =
      p1.drop (max a0 b0) := by
    rw [List.filter_eq_self]
    intro x hx
    have hnotin : x ∉ (p1.drop (min a0 b0)).take (max a0 b0 - min a0 b0) := by
      intro hxs
      exact hndsplit.2.2.2 hxs hx
    exact decide_eq_true hnotin
  have hfiltS : ((p1.drop (min a0 b0)).take (max a0 b0 - min a0 b0)).filter
      (fun g => decide (g ∉ (p1.drop (min a0 b0)).take (max a0 b0 - min a0 b0))) = [] := by
    rw [List.filter_eq_nil_iff]
    intro x hx
    simp [hx]
  have hfp1 : p1.filter
      (fun g => decide (g ∉ (p1.drop (min a0 b0)).take (max a0 b0 - min a0 b0))) =
      p1.take (min a0 b0) ++ p1.drop (max a0 b0) := by
    have hcongr := congrArg (List.filter
      (fun g => decide (g ∉ (p1.drop (min a0 b0)).take (max a0 b0 - min a0 b0)))) hdecomp
    rw [List.filter_append, List.filter_append, hfiltA, hfiltB, hfiltS,
      List.nil_append] at hcongr
    exact hcongr
  have hcount : countNone (List.replicate (min a0 b0) (none : Option ℕ) ++
      ((p1.drop (min a0 b0)).take (max a0 b0 - min a0 b0)).map some ++
      List.replicate (p1.length - max a0 b0) (none : Option ℕ)) =
      (p2.filter
        (fun g => decide (g ∉ (p1.drop (min a0 b0)).take (max a0 b0 - min a0 b0)))).length := by
    have hlfp2 : (p2.filter
        (fun g => decide (g ∉ (p1.drop (min a0 b0)).take (max a0 b0 - min a0 b0)))).length =
        (p1.filter
          (fun g => decide (g ∉ (p1.drop (min a0 b0)).take (max a0 b0 - min a0 b0)))).length :=
      (hp.filter _).length_eq
    rw [hlfp2, hfp1]
    simp only [countNone, List.countP_append]
    have h1 := countNone_replicate (min a0 b0)
    have h2 := countNone_replicate (p1.length - max a0 b0)
    have h3 := countNone_map_some ((p1.drop (min a0 b0)).take (max a0 b0 - min a0 b0))
    simp only [countNone] at h1 h2 h3
    rw [h1, h2, h3, List.length_append, List.length_take, List.length_drop]
    omega
  obtain ⟨child2, hok2, hperm2⟩ := placeAll_spec
    ((p1.drop (min a0 b0)).take (max a0 b0 - min a0 b0)) p2
    (List.replicate (min a0 b0) none ++
      ((p1.drop (min a0 b0)).take (max a0 b0 - min a0 b0)).map some ++
      List.replicate (p1.length - max a0 b0) none) 0 hcount (fun k hk => by omega)
  have hred0 : (List.replicate (min a0 b0) (none : Option ℕ) ++
      ((p1.drop (min a0 b0)).take (max a0 b0 - min a0 b0)).map some ++
      List.replicate (p1.length - max a0 b0) (none : Option ℕ)).reduceOption =
      (p1.drop (min a0 b0)).take (max a0 b0 - min a0 b0) := by
    rw [List.reduceOption_append, List.reduceOption_append, reduceOption_replicate_none,
      reduceOption_replicate_none, reduceOption_map_some, List.append_nil, List.nil_append]
  have hfinal : child2.reduceOption.Perm p1 := by
    rw [hred0] at hperm2
    refine hperm2.trans ?_
    refine (List.Perm.append_right _ (hp.filter _)).trans ?_
    rw [hfp1, List.append_assoc]
    refine (List.Perm.append_left _ List.perm_append_comm).trans ?_
    rw [← hdecomp]
  refine ⟨child2.reduceOption, (sampleGo rng c 2 (List.range p1.length)).2, ?_, hfinal⟩
  unfold crossover
  rw [hok]
  dsimp only
  rw [hl]
  dsimp only [List.getD_cons_zero, List.getD_cons_succ]
  rw [hok2]

/-- C9: order-preserving crossover on two parents that are permutations
of the same index set (length at least 2, no duplicates) produces a child
that is again a permutation of that set, and swap mutation preserves the
property (for every random stream). -/
theorem c9_crossover_mutation_permutation (rng : ℕ → ℕ) (c : ℕ) (p1 p2 : List ℕ)
    (h2 : 2 ≤ p1.length) (hnd : p1.Nodup) (hp : p2.Perm p1) :
    ∃ child c2, crossover rng c p1 p2 = Except.ok (child, c2) ∧ child.Perm p1 ∧
      ∀ (rng2 : ℕ → ℕ) (c3 : ℕ), ∃ child2 c4,
        mutate rng2 c3 child = Except.ok (child2, c4) ∧ child2.Perm p1 := by
  obtain ⟨child, c2, hok, hperm⟩ := crossover_perm rng c p1 p2 h2 hnd hp
  refine ⟨child, c2, hok, hperm, ?_⟩
  intro rng2 c3
  have hlen2 : 2 ≤ child.length := by rw [hperm.length_eq]; exact h2
  obtain ⟨l2, c4, hmut, hp2⟩ := mutate_perm rng2 c3 child hlen2
  exact ⟨l2, c4, hmut, hp2.trans hperm⟩

/-- C9 witness: the theorem applied to the concrete parents `[0, 1]` and
`[1, 0]` with a constant random stream. -/
theorem c9_witness :
    ∃ child c2, crossover (fun _ => 0) 0 [0, 1] [1, 0] = Except.ok (child, c2) ∧
      child.Perm [0, 1] ∧ ∀ (rng2 : ℕ → ℕ) (c3 : ℕ), ∃ child2 c4,
        mutate rng2 c3 child = Except.ok (child2, c4) ∧ child2.Perm [0, 1] :=
  c9_crossover_mutation_permutation (fun _ => 0) 0 [0, 1] [1, 0] (by decide) (by decide)
    (by decide)

/-! ## Executor infrastructure: static fields survive execution -/

/-- Order projections that do not look at `current_integrity` (all fields
mutated by `_traverse_path` damage). -/
def IntegInsensitive {α : Type} (f : Order → α) : Prop :=
  ∀ (o : Order) (x : ℚ), f { o with current_integrity := x } = f o

theorem damageTick_pres {α : Type} (f : Order → α) (hf : IntegInsensitive f)
    (orders : List Order) (i : ℕ) (t : ℚ) (j : ℕ) :
    f ((damageTick orders i t).getD j dummyOrder) = f (orders.getD j dummyOrder) := by
  by_cases hij : i = j
  · subst hij
    by_cases hi : i < orders.length
    · unfold damageTick
      rw [List.getD_eq_getElem?_getD, List.getElem?_set_eq hi]
      exact hf _ _
    · unfold damageTick
      rw [List.set_eq_of_length_le (by omega)]
  · unfold damageTick
    rw [List.getD_eq_getElem?_getD, List.getElem?_set_ne hij, ← List.getD_eq_getElem?_getD]

theorem applyDamage_pres {α : Type} (f : Order → α) (hf : IntegInsensitive f)
    (frag : List ℕ) : ∀ (orders : List Order) (t : ℚ) (j : ℕ),
    f ((applyDamage orders frag t).getD j dummyOrder) = f (orders.getD j dummyOrder) := by
  induction frag with
  | nil => intro orders t j; rfl
  | cons i rest ih =>
      intro orders t j
      exact (ih (damageTick orders i t) t j).trans (damageTick_pres f hf orders i t j)

theorem traverseLoop_pres {α : Type} (f : Order → α) (hf : IntegInsensitive f)
    (g : Graph) (cargo : List ℕ) : ∀ (path : List ℕ) (ts dm : ℚ)
    (orders : List Order) (j : ℕ),
    f ((traverseLoop g cargo path ts dm orders).2.2.getD j dummyOrder) =
      f (orders.getD j dummyOrder) := by
  intro path
  induction path with
  | nil => intro ts dm orders j; rfl
  | cons u rest ih =>
      intro ts dm orders j
      cases rest with
      | nil => rfl
      | cons v rest2 =>
          simp only [traverseLoop]
          cases hedge : g.findEdge u v with
          | none => exact ih ts dm orders j
          | some data =>
              by_cases hbad : data.pavement_quality = Pav.bad
              · simp only [hbad, if_pos]
                exact (ih _ _ _ j).trans
                  (applyDamage_pres f hf (get_fragile_cargo orders cargo) orders _ j)
              · simp only [hbad, if_neg, if_false]
                exact ih _ _ _ j

theorem traverse_path_pres {α : Type} (f : Order → α) (hf : IntegInsensitive f)
    (g : Graph) (orders : List Order) (cargo path : List ℕ) (j : ℕ) :
    f ((traverse_path g orders cargo path).2.2.getD j dummyOrder) =
      f (orders.getD j dummyOrder) := by
  unfold traverse_path
  by_cases hp : path.isEmpty
  · rw [if_pos hp]
  · rw [if_neg hp]
    exact traverseLoop_pres f hf g cargo path 0 0 orders j

/-- Everything `_traverse_path` leaves intact when the index is not in the
cargo: the order record does not change at all. -/
theorem applyDamage_notmem (frag : List ℕ) : ∀ (orders : List Order) (t : ℚ) (j : ℕ),
    j ∉ frag →
    (applyDamage orders frag t).getD j dummyOrder = orders.getD j dummyOrder := by
  induction frag with
  | nil => intro orders t j _; rfl
  | cons i rest ih =>
      intro orders t j hj
      have hij : i ≠ j := fun h => hj (h ▸ List.mem_cons_self i rest)
      have hjr : j ∉ rest := fun h => hj (List.mem_cons_of_mem i h)
      rw [show applyDamage orders (i :: rest) t =
        applyDamage (damageTick orders i t) rest t from rfl, ih _ t j hjr]
      unfold damageTick
      rw [List.getD_eq_getElem?_getD, List.getElem?_set_ne hij, ← List.getD_eq_getElem?_getD]

theorem traverseLoop_notincargo (g : Graph) (cargo : List ℕ) (j : ℕ)
    (hj : j ∉ cargo) : ∀ (path : List ℕ) (ts dm : ℚ) (orders : List Order),
    (traverseLoop g cargo path ts dm orders).2.2.getD j dummyOrder =
      orders.getD j dummyOrder := by
  intro path
  induction path with
  | nil => intro ts dm orders; rfl
  | cons u rest ih =>
      intro ts dm orders
      cases rest with
      | nil => rfl
      | cons v rest2 =>
          simp only [traverseLoop]
          cases hedge : g.findEdge u v with
          | none => exact ih ts dm orders
          | some data =>
              by_cases hbad : data.pavement_quality = Pav.bad
              · simp only [hbad, if_pos]
                rw [ih _ _ _]
                refine applyDamage_notmem (get_fragile_cargo orders cargo) orders _ j ?_
                intro hmem
                exact hj (List.mem_filter.mp hmem).1
              · simp only [hbad, if_neg, if_false]
                exact ih _ _ _

theorem traverse_path_notincargo (g : Graph) (orders : List Order)
    (cargo path : List ℕ) (j : ℕ) (hj : j ∉ cargo) :
    (traverse_path g orders cargo path).2.2.getD j dummyOrder =
      orders.getD j dummyOrder := by
  unfold traverse_path
  by_cases hp : path.isEmpty
  · rw [if_pos hp]
  · rw [if_neg hp]
    exact traverseLoop_notincargo g cargo j hj path 0 0 orders

/-- The three integrity-insensitive projections used below. -/
theorem weight_insensitive : IntegInsensitive Order.weight := fun _ _ => rfl

theorem fragile_insensitive : IntegInsensitive Order.is_fragile := fun _ _ => rfl

theorem node_insensitive : IntegInsensitive Order.node_id := fun _ _ => rfl

theorem delivered_insensitive : IntegInsensitive Order.delivered := fun _ _ => rfl

/-- `current_load` depends only on the weight projection. -/
theorem current_load_congr (a b : List Order) (cargo : List ℕ)
    (h : ∀ j, (b.getD j dummyOrder).weight = (a.getD j dummyOrder).weight) :
    current_load b cargo = current_load a cargo := by
  unfold current_load
  induction cargo with
  | nil => rfl
  | cons i rest ih =>
      simp only [List.map_cons, List.sum_cons]
      rw [h i, ih]

theorem current_load_append (orders : List Order) (cargo : List ℕ) (i : ℕ) :
    current_load orders (cargo ++ [i]) =
      current_load orders cargo + (orders.getD i dummyOrder).weight := by
  unfold current_load
  rw [List.map_append, List.sum_append]
  simp

theorem current_load_nonneg (orders : List Order) (cargo : List ℕ)
    (hw : ∀ j, 0 ≤ (orders.getD j dummyOrder).weight) :
    0 ≤ current_load orders cargo := by
  unfold current_load
  refine List.sum_nonneg ?_
  intro x hx
  obtain ⟨i, _, rfl⟩ := List.mem_map.mp hx
  exact hw i

theorem setDelivered_pres {α : Type} (f : Order → α)
    (hfd : ∀ (o : Order) (b : Bool), f { o with delivered := b } = f o)
    (orders : List Order) (i j : ℕ) (o2 : Order)
    (ho2 : o2 = orders.getD i dummyOrder) :
    f ((orders.set i { o2 with delivered := true }).getD j dummyOrder) =
      f (orders.getD j dummyOrder) := by
  by_cases hij : i = j
  · subst hij
    by_cases hi : i < orders.length
    · rw [List.getD_eq_getElem?_getD, List.getElem?_set_eq hi]
      show f { o2 with delivered := true } = f (orders.getD i dummyOrder)
      rw [hfd o2 true, ho2]
    · rw [List.set_eq_of_length_le (by omega)]
  · rw [List.getD_eq_getElem?_getD, List.getElem?_set_ne hij, ← List.getD_eq_getElem?_getD]

/-- One executor iteration never changes the integrity-and-delivery
insensitive projections of any order. -/
theorem execStep_pres {α : Type} (f : Order → α) (hf : IntegInsensitive f)
    (hfd : ∀ (o : Order) (b : Bool), f { o with delivered := b } = f o)
    (g : Graph) (pathFn : ℕ → ℕ → Bool → List ℕ) (cap : ℚ) (depot : ℕ)
    (st : ExecState) (i j : ℕ) :
    f ((execStep g pathFn cap depot st i).orders.getD j dummyOrder) =
      f (st.orders.getD j dummyOrder) := by
  unfold execStep
  dsimp only
  by_cases hcl : can_load st.orders st.cargo cap ((st.orders.getD i dummyOrder).weight) = true
  · rw [if_pos hcl]
    by_cases hpe : (pathFn st.current_node ((st.orders.getD i dummyOrder).node_id)
        (decide (0 < (get_fragile_cargo st.orders st.cargo).length))).isEmpty = true
    · rw [if_pos hpe]
    · rw [if_neg hpe]
      exact (setDelivered_pres f hfd _ i j _ rfl).trans
        (traverse_path_pres f hf g st.orders st.cargo _ j)
  · rw [if_neg hcl]
    by_cases hpe : (pathFn depot ((st.orders.getD i dummyOrder).node_id)
        (decide (0 < (get_fragile_cargo
          (traverse_path g st.orders st.cargo
            (pathFn st.current_node depot
              (decide (0 < (get_fragile_cargo st.orders st.cargo).length)))).2.2 []).length))).isEmpty = true
    · rw [if_pos hpe]
      exact traverse_path_pres f hf g st.orders st.cargo _ j
    · rw [if_neg hpe]
      exact ((setDelivered_pres f hfd _ i j _ rfl).trans
        (traverse_path_pres f hf g _ [] _ j)).trans
        (traverse_path_pres f hf g st.orders st.cargo _ j)

theorem execFinal_pres {α : Type} (f : Order → α) (hf : IntegInsensitive f)
    (g : Graph) (pathFn : ℕ → ℕ → Bool → List ℕ) (depot : ℕ)
    (st : ExecState) (j : ℕ) :
    f ((execFinal g pathFn depot st).orders.getD j dummyOrder) =
      f (st.orders.getD j dummyOrder) := by
  unfold execFinal
  dsimp only
  exact traverse_path_pres f hf g st.orders st.cargo _ j

theorem foldl_execStep_pres {α : Type} (f : Order → α) (hf : IntegInsensitive f)
    (hfd : ∀ (o : Order) (b : Bool), f { o with delivered := b } = f o)
    (g : Graph) (pathFn : ℕ → ℕ → Bool → List ℕ) (cap : ℚ) (depot : ℕ) :
    ∀ (seq : List ℕ) (st : ExecState) (j : ℕ),
    f ((seq.foldl (execStep g pathFn cap depot) st).orders.getD j dummyOrder) =
      f (st.orders.getD j dummyOrder) := by
  intro seq
  induction seq with
  | nil => intro st j; rfl
  | cons i rest ih =>
      intro st j
      rw [List.foldl_cons]
      exact (ih (execStep g pathFn cap depot st i) j).trans
        (execStep_pres f hf hfd g pathFn cap depot st i j)

theorem execRun_pres {α : Type} (f : Order → α) (hf : IntegInsensitive f)
    (hfd : ∀ (o : Order) (b : Bool), f { o with delivered := b } = f o)
    (g : Graph) (pathFn : ℕ → ℕ → Bool → List ℕ) (cap : ℚ) (depot : ℕ)
    (orders : List Order) (seq : List ℕ) (j : ℕ) :
    f ((execRun g pathFn cap depot orders seq).orders.getD j dummyOrder) =
      f (orders.getD j dummyOrder) := by
  unfold execRun
  exact (execFinal_pres f hf g pathFn depot _ j).trans
    (foldl_execStep_pres f hf hfd g pathFn cap depot seq (execInit orders depot) j)

/-- Capacity invariant, one step. -/
theorem execStep_load (g : Graph) (pathFn : ℕ → ℕ → Bool → List ℕ) (cap : ℚ)
    (depot : ℕ) (st : ExecState) (i : ℕ) (hcap : 0 ≤ cap)
    (hload : current_load st.orders st.cargo ≤ cap) :
    current_load (execStep g pathFn cap depot st i).orders
      (execStep g pathFn cap depot st i).cargo ≤ cap := by
  have hwts : IntegInsensitive Order.weight := weight_insensitive
  have hwd : ∀ (o : Order) (b : Bool), Order.weight { o with delivered := b } = Order.weight o :=
    fun _ _ => rfl
  unfold execStep
  dsimp only
  by_cases hcl : can_load st.orders st.cargo cap ((st.orders.getD i dummyOrder).weight) = true
  · rw [if_pos hcl]
    by_cases hpe : (pathFn st.current_node ((st.orders.getD i dummyOrder).node_id)
        (decide (0 < (get_fragile_cargo st.orders st.cargo).length))).isEmpty = true
    · rw [if_pos hpe]
      exact hload
    · rw [if_neg hpe]
      dsimp only
      have hw3 : ∀ j, ((((traverse_path g st.orders st.cargo
          (pathFn st.current_node ((st.orders.getD i dummyOrder).node_id)
            (decide (0 < (get_fragile_cargo st.orders st.cargo).length)))).2.2.set i
          { (traverse_path g st.orders st.cargo
              (pathFn st.current_node ((st.orders.getD i dummyOrder).node_id)
                (decide (0 < (get_fragile_cargo st.orders st.cargo).length)))).2.2.getD i dummyOrder
            with delivered := true }).getD j dummyOrder)).weight =
          ((st.orders.getD j dummyOrder)).weight := by
        intro j
        exact (setDelivered_pres Order.weight hwd _ i j _ rfl).trans
          (traverse_path_pres Order.weight hwts g st.orders st.cargo _ j)
      have hwt : ∀ j, (((traverse_path g st.orders st.cargo
          (pathFn st.current_node ((st.orders.getD i dummyOrder).node_id)
            (decide (0 < (get_fragile_cargo st.orders st.cargo).length)))).2.2.getD j dummyOrder)).weight =
          ((st.orders.getD j dummyOrder)).weight := by
        intro j
        exact traverse_path_pres Order.weight hwts g st.orders st.cargo _ j
      by_cases hcl2 : can_load (traverse_path g st.orders st.cargo
          (pathFn st.current_node ((st.orders.getD i dummyOrder).node_id)
            (decide (0 < (get_fragile_cargo st.orders st.cargo).length)))).2.2 st.cargo cap
          ((st.orders.getD i dummyOrder).weight) = true
      · rw [if_pos hcl2]
        have hgoal := of_decide_eq_true hcl2
        rw [current_load_append, current_load_congr st.orders _ st.cargo hw3, hw3 i]
        rw [current_load_congr st.orders _ st.cargo hwt] at hgoal
        exact hgoal
      · rw [if_neg hcl2]
        rw [current_load_congr st.orders _ st.cargo hw3]
        exact hload
  · rw [if_neg hcl]
    dsimp only
    by_cases hpe : (pathFn depot ((st.orders.getD i dummyOrder).node_id)
        (decide (0 < (get_fragile_cargo
          (traverse_path g st.orders st.cargo
            (pathFn st.current_node depot
              (decide (0 < (get_fragile_cargo st.orders st.cargo).length)))).2.2 []).length))).isEmpty = true
    · rw [if_pos hpe]
      exact hcap
    · rw [if_neg hpe]
      dsimp only
      by_cases hcl2 : can_load (traverse_path g
            (traverse_path g st.orders st.cargo
              (pathFn st.current_node depot
                (decide (0 < (get_fragile_cargo st.orders st.cargo).length)))).2.2 []
            (pathFn depot ((st.orders.getD i dummyOrder).node_id)
              (decide (0 < (get_fragile_cargo
                (traverse_path g st.orders st.cargo
                  (pathFn st.current_node depot
                    (decide (0 < (get_fragile_cargo st.orders st.cargo).length)))).2.2 []).length)))).2.2
          [] cap ((st.orders.getD i dummyOrder).weight) = true
      · rw [if_pos hcl2]
        have hgoal := of_decide_eq_true hcl2
        rw [show current_load _ [] = (0 : ℚ) from rfl, zero_add] at hgoal
        rw [show ([] : List ℕ) ++ [i] = [i] from rfl]
        have : ∀ (os : List Order), current_load os [i] = ((os.getD i dummyOrder)).weight := by
          intro os
          show ((os.getD i dummyOrder)).weight + 0 = _
          rw [add_zero]
        rw [this]
        have hw4 : ((((traverse_path g
            (traverse_path g st.orders st.cargo
              (pathFn st.current_node depot
                (decide (0 < (get_fragile_cargo st.orders st.cargo).length)))).2.2 []
            (pathFn depot ((st.orders.getD i dummyOrder).node_id)
              (decide (0 < (get_fragile_cargo
                (traverse_path g st.orders st.cargo
                  (pathFn st.current_node depot
                    (decide (0 < (get_fragile_cargo st.orders st.cargo).length)))).2.2 []).length)))).2.2.set i
            { (traverse_path g
                (traverse_path g st.orders st.cargo
                  (pathFn st.current_node depot
                    (decide (0 < (get_fragile_cargo st.orders st.cargo).length)))).2.2 []
                (pathFn depot ((st.orders.getD i dummyOrder).node_id)
                  (decide (0 < (get_fragile_cargo
                    (traverse_path g st.orders st.cargo
                      (pathFn st.current_node depot
                        (decide (0 < (get_fragile_cargo st.orders st.cargo).length)))).2.2 []).length)))).2.2.getD i dummyOrder
              with delivered := true }).getD i dummyOrder)).weight =
            ((st.orders.getD i dummyOrder)).weight := by
          exact ((setDelivered_pres Order.weight hwd _ i i _ rfl).trans
            ((traverse_path_pres Order.weight hwts g _ [] _ i).trans
              (traverse_path_pres Order.weight hwts g st.orders st.cargo _ i)))
        rw [hw4]
        exact hgoal
      · rw [if_neg hcl2]
        exact hcap

theorem scanl_forall {α β : Type} (f : β → α → β) (P : β → Prop)
    (hstep : ∀ b a, P b → P (f b a)) :
    ∀ (l : List α) (b : β), P b → ∀ x ∈ List.scanl f b l, P x := by
  intro l
  induction l with
  | nil =>
      intro b hb x hx
      simp only [List.scanl] at hx
      rw [List.mem_singleton.mp hx]
      exact hb
  | cons a t ih =>
      intro b hb x hx
      simp only [List.scanl] at hx
      rcases List.mem_cons.mp hx with h | h
      · rw [h]; exact hb
      · exact ih (f b a) (hstep b a hb) x h

theorem foldl_invariant {α β : Type} (f : β → α → β) (P : β → Prop)
    (hstep : ∀ b a, P b → P (f b a)) :
    ∀ (l : List α) (b : β), P b → P (l.foldl f b) := by
  intro l
  induction l with
  | nil => intro b hb; exact hb
  | cons a t ih =>
      intro b hb
      rw [List.foldl_cons]
      exact ih (f b a) (hstep b a hb)

theorem execFinal_load (g : Graph) (pathFn : ℕ → ℕ → Bool → List ℕ) (depot : ℕ)
    (st : ExecState) :
    current_load (execFinal g pathFn depot st).orders (execFinal g pathFn depot st).cargo =
      current_load st.orders st.cargo := by
  unfold execFinal
  dsimp only
  refine current_load_congr st.orders _ st.cargo ?_
  intro j
  exact traverse_path_pres Order.weight weight_insensitive g st.orders st.cargo _ j

/-- C6, amended: at every vehicle state the executor passes through —
initial, after each delivery iteration, and after the final depot leg —
the summed cargo weight is at most the capacity.  (Within one iteration
the cargo takes only the values: unchanged, emptied by a depot unload, or
extended by the `can_load`-guarded append, so the bound holds at every
intermediate instant as well.)  The guard that makes this true is partly
`load_order`'s own rejection: an order heavier than the whole capacity is
refused rather than accommodated by the forced depot return. -/
theorem c6_amended (g : Graph) (pathFn : ℕ → ℕ → Bool → List ℕ) (cap : ℚ)
    (depot : ℕ) (orders : List Order) (seq : List ℕ) (hcap : 0 ≤ cap) :
    ∀ st ∈ execStates g pathFn cap depot orders seq,
      current_load st.orders st.cargo ≤ cap := by
  intro st hst
  unfold execStates at hst
  rcases List.mem_append.mp hst with h | h
  · refine scanl_forall (execStep g pathFn cap depot)
      (fun s => current_load s.orders s.cargo ≤ cap) ?_ seq (execInit orders depot) ?_ st h
    · intro b a hb
      exact execStep_load g pathFn cap depot b a hcap hb
    · exact hcap
  · have hst2 : st = execRun g pathFn cap depot orders seq := by
      simpa using h
    rw [hst2]
    unfold execRun
    rw [execFinal_load]
    refine foldl_invariant (execStep g pathFn cap depot)
      (fun s => current_load s.orders s.cargo ≤ cap) ?_ seq (execInit orders depot) hcap
    intro b a hb
    exact execStep_load g pathFn cap depot b a hcap hb

/-- Order heavier than the whole truck (40 kg against capacity 30). -/
def c6Order : Order := ⟨0, 1, 60, 40, false, 0, 5, Risk.unknown, 100, false⟩

/-- Concrete path oracle on the two-node network (total, never empty). -/
def c6pf : ℕ → ℕ → Bool → List ℕ :=
  fun s t _ => if s == t then [s] else if s == 0 && t == 1 then [0, 1] else [1, 0]

/-- C6, counterexample.  A 40 kg order against a 30 kg capacity: the
forced depot return happens (the truck is already empty), the load is
then rejected by `load_order` (`can_load` is false even on an empty
truck), yet the order is marked delivered — so the invariant is *not*
enforced purely by depot returns, contradicting "never by rejecting the
order". -/
theorem c6_counterexample :
    (30 : ℚ) < (40 : ℚ) ∧
    can_load [c6Order] [] 30 (40 : ℚ) = false ∧
    ((execRun c4Graph c6pf 30 0 [c6Order] [0]).orders.getD 0 dummyOrder).delivered = true ∧
    (execRun c4Graph c6pf 30 0 [c6Order] [0]).cargo = [] := by
  decide

/-- C6 witness: the amended invariant applied to the concrete overweight
run, at the final state. -/
theorem c6_witness :
    current_load (execRun c4Graph c6pf 30 0 [c6Order] [0]).orders
      (execRun c4Graph c6pf 30 0 [c6Order] [0]).cargo ≤ 30 :=
  c6_amended c4Graph c6pf 30 0 [c6Order] [0] (by norm_num)
    (execRun c4Graph c6pf 30 0 [c6Order] [0])
    (List.mem_append.mpr (Or.inr (List.mem_singleton.mpr rfl)))

/-! ## C7: integrity damage and the [0,100] window -/

/-- All edge lengths of the network are nonnegative (true of any real
road network; lengths come from OSM). -/
def NonnegLengths (g : Graph) : Prop :=
  ∀ e ∈ g.edges, 0 ≤ e.2.2.length

/-- Every order's integrity lies in the [0,100] window. -/
def IntegOK (orders : List Order) : Prop :=
  ∀ j : ℕ, 0 ≤ ((orders.getD j dummyOrder)).current_integrity ∧
    ((orders.getD j dummyOrder)).current_integrity ≤ 100

theorem findEdge_nonneg {g : Graph} {u v : ℕ} {d : EdgeData}
    (hg : NonnegLengths g) (h : g.findEdge u v = some d) : 0 ≤ d.length := by
  unfold Graph.findEdge at h
  obtain ⟨e, hfind, hed⟩ := Option.map_eq_some.mp h
  have hmem := List.mem_of_find?_eq_some hfind
  rw [← hed]
  exact hg e hmem

theorem damageTick_getD_ne (orders : List Order) (i j : ℕ) (t : ℚ) (hne : i ≠ j) :
    (damageTick orders i t).getD j dummyOrder = orders.getD j dummyOrder := by
  unfold damageTick
  rw [List.getD_eq_getElem?_getD, List.getElem?_set_ne hne, ← List.getD_eq_getElem?_getD]

theorem damageTick_getD_eq (orders : List Order) (i : ℕ) (t : ℚ) (hi : i < orders.length) :
    (damageTick orders i t).getD i dummyOrder =
      { orders.getD i dummyOrder with current_integrity :=
          if (orders.getD i dummyOrder).current_integrity - t < 0 then 0
          else (orders.getD i dummyOrder).current_integrity - t } := by
  unfold damageTick
  rw [List.getD_eq_getElem?_getD, List.getElem?_set_eq hi]
  rfl

theorem damageTick_getD_oob (orders : List Order) (i : ℕ) (t : ℚ)
    (hi : orders.length ≤ i) : damageTick orders i t = orders := by
  unfold damageTick
  exact List.set_eq_of_length_le hi

theorem damageTick_integOK (orders : List Order) (i : ℕ) (t : ℚ) (ht : 0 ≤ t)
    (hok : IntegOK orders) : IntegOK (damageTick orders i t) := by
  intro j
  by_cases hij : i = j
  · subst hij
    by_cases hi : i < orders.length
    · rw [damageTick_getD_eq orders i t hi]
      obtain ⟨h0, h100⟩ := hok i
      by_cases hneg : ((orders.getD i dummyOrder)).current_integrity - t < 0
      · simp only [hneg, if_pos]
        norm_num
      · simp only [hneg, if_neg, if_false]
        constructor
        · linarith [not_lt.mp hneg]
        · linarith
    · rw [damageTick_getD_oob orders i t (by omega)]
      exact hok i
  · unfold damageTick
    rw [List.getD_eq_getElem?_getD, List.getElem?_set_ne hij, ← List.getD_eq_getElem?_getD]
    exact hok j

theorem applyDamage_integOK (frag : List ℕ) : ∀ (orders : List Order) (t : ℚ),
    0 ≤ t → IntegOK orders → IntegOK (applyDamage orders frag t) := by
  induction frag with
  | nil => intro orders t _ hok; exact hok
  | cons i rest ih =>
      intro orders t ht hok
      exact ih (damageTick orders i t) t ht (damageTick_integOK orders i t ht hok)

theorem traverseLoop_integOK (g : Graph) (hg : NonnegLengths g) (cargo : List ℕ) :
    ∀ (path : List ℕ) (ts dm : ℚ) (orders : List Order),
    IntegOK orders → IntegOK (traverseLoop g cargo path ts dm orders).2.2 := by
  intro path
  induction path with
  | nil => intro ts dm orders hok; exact hok
  | cons u rest ih =>
      intro ts dm orders hok
      cases rest with
      | nil => exact hok
      | cons v rest2 =>
          simp only [traverseLoop]
          cases hedge : g.findEdge u v with
          | none => exact ih ts dm orders hok
          | some data =>
              by_cases hbad : data.pavement_quality = Pav.bad
              · simp only [hbad, if_pos]
                refine ih _ _ _ ?_
                refine applyDamage_integOK _ _ _ ?_ hok
                have := findEdge_nonneg hg hedge
                positivity
              · simp only [hbad, if_neg, if_false]
                exact ih _ _ _ hok

theorem traverse_path_integOK (g : Graph) (hg : NonnegLengths g)
    (orders : List Order) (cargo path : List ℕ) (hok : IntegOK orders) :
    IntegOK (traverse_path g orders cargo path).2.2 := by
  unfold traverse_path
  by_cases hp : path.isEmpty
  · rw [if_pos hp]; exact hok
  · rw [if_neg hp]
    exact traverseLoop_integOK g hg cargo path 0 0 orders hok

theorem setDelivered_integOK (orders : List Order) (i : ℕ) (o2 : Order)
    (ho2 : o2 = orders.getD i dummyOrder) (hok : IntegOK orders) :
    IntegOK (orders.set i { o2 with delivered := true }) := by
  intro j
  rw [setDelivered_pres Order.current_integrity (fun _ _ => rfl) orders i j o2 ho2]
  exact hok j

theorem execStep_integOK (g : Graph) (hg : NonnegLengths g)
    (pathFn : ℕ → ℕ → Bool → List ℕ) (cap : ℚ) (depot : ℕ)
    (st : ExecState) (i : ℕ) (hok : IntegOK st.orders) :
    IntegOK (execStep g pathFn cap depot st i).orders := by
  unfold execStep
  dsimp only
  by_cases hcl : can_load st.orders st.cargo cap ((st.orders.getD i dummyOrder).weight) = true
  · rw [if_pos hcl]
    by_cases hpe : (pathFn st.current_node ((st.orders.getD i dummyOrder).node_id)
        (decide (0 < (get_fragile_cargo st.orders st.cargo).length))).isEmpty = true
    · rw [if_pos hpe]; exact hok
    · rw [if_neg hpe]
      exact setDelivered_integOK _ i _ rfl
        (traverse_path_integOK g hg st.orders st.cargo _ hok)
  · rw [if_neg hcl]
    dsimp only
    by_cases hpe : (pathFn depot ((st.orders.getD i dummyOrder).node_id)
        (decide (0 < (get_fragile_cargo
          (traverse_path g st.orders st.cargo
            (pathFn st.current_node depot
              (decide (0 < (get_fragile_cargo st.orders st.cargo).length)))).2.2 []).length))).isEmpty = true
    · rw [if_pos hpe]
      exact traverse_path_integOK g hg st.orders st.cargo _ hok
    · rw [if_neg hpe]
      exact setDelivered_integOK _ i _ rfl
        (traverse_path_integOK g hg _ [] _
          (traverse_path_integOK g hg st.orders st.cargo _ hok))

theorem execRun_integOK (g : Graph) (hg : NonnegLengths g)
    (pathFn : ℕ → ℕ → Bool → List ℕ) (cap : ℚ) (depot : ℕ)
    (orders : List Order) (seq : List ℕ) (hok : IntegOK orders) :
    IntegOK (execRun g pathFn cap depot orders seq).orders := by
  unfold execRun execFinal
  dsimp only
  refine traverse_path_integOK g hg _ _ _ ?_
  refine foldl_invariant (execStep g pathFn cap depot) (fun s => IntegOK s.orders)
    ?_ seq (execInit orders depot) hok
  intro b a hb
  exact execStep_integOK g hg pathFn cap depot b a hb

theorem sum_le_hundred (l : List ℚ) (h : ∀ x ∈ l, x ≤ 100) :
    l.sum ≤ 100 * l.length := by
  induction l with
  | nil => simp
  | cons a t ih =>
      simp only [List.sum_cons, List.length_cons]
      have ha := h a (List.mem_cons_self a t)
      have ht := ih (fun x hx => h x (List.mem_cons_of_mem a hx))
      push_cast
      nlinarith

theorem damageTick_length (orders : List Order) (i : ℕ) (t : ℚ) :
    (damageTick orders i t).length = orders.length := by
  unfold damageTick
  exact List.length_set ..

/-- Damage is applied exactly once to each member of a duplicate-free
damage list. -/
theorem applyDamage_mem_once : ∀ (frag : List ℕ) (orders : List Order) (t : ℚ) (i : ℕ),
    frag.Nodup → i ∈ frag → i < orders.length →
    (applyDamage orders frag t).getD i dummyOrder =
      { orders.getD i dummyOrder with current_integrity :=
          if (orders.getD i dummyOrder).current_integrity - t < 0 then 0
          else (orders.getD i dummyOrder).current_integrity - t } := by
  intro frag
  induction frag with
  | nil => intro orders t i _ hmem _; cases hmem
  | cons f rest ih =>
      intro orders t i hnd hmem hlen
      by_cases hif : i = f
      · subst hif
        have hnr : i ∉ rest := (List.nodup_cons.mp hnd).1
        show (applyDamage (damageTick orders i t) rest t).getD i dummyOrder = _
        rw [applyDamage_notmem rest _ t i hnr, damageTick_getD_eq orders i t hlen]
      · have hir : i ∈ rest := by
          rcases List.mem_cons.mp hmem with h | h
          · exact absurd h hif
          · exact h
        show (applyDamage (damageTick orders f t) rest t).getD i dummyOrder = _
        rw [ih (damageTick orders f t) t i (List.nodup_cons.mp hnd).2 hir
          (by rw [damageTick_length]; exact hlen)]
        rw [damageTick_getD_ne orders f i t (fun h => hif h.symm)]

/-- Bounds of the reported integrity average. -/
theorem execute_avg_bounds (g : Graph) (pathFn : ℕ → ℕ → Bool → List ℕ)
    (cap : ℚ) (depot : ℕ) (mode : RouteMode) (orders : List Order) (seq : List ℕ)
    (hg : NonnegLengths g) (hok : IntegOK orders) :
    0 ≤ (execute_delivery_route g pathFn cap depot mode orders seq).avg_integrity ∧
    (execute_delivery_route g pathFn cap depot mode orders seq).avg_integrity ≤ 100 := by
  have hok2 := execRun_integOK g hg pathFn cap depot orders seq hok
  unfold execute_delivery_route
  dsimp only
  by_cases hemp : (seq.filter (fun i =>
      ((execRun g pathFn cap depot orders seq).orders.getD i dummyOrder).delivered)).isEmpty = true
  · rw [if_pos hemp]
    norm_num
  · rw [if_neg hemp]
    have hne : seq.filter (fun i =>
        ((execRun g pathFn cap depot orders seq).orders.getD i dummyOrder).delivered) ≠ [] := by
      intro hnil
      rw [hnil] at hemp
      exact hemp rfl
    have hpos : 0 < ((seq.filter (fun i =>
        ((execRun g pathFn cap depot orders seq).orders.getD i dummyOrder).delivered)).length : ℚ) := by
      have := List.length_pos_of_ne_nil hne
      exact_mod_cast this
    have hvals : ∀ x ∈ (seq.filter (fun i =>
        ((execRun g pathFn cap depot orders seq).orders.getD i dummyOrder).delivered)).map
          (fun i => ((execRun g pathFn cap depot orders seq).orders.getD i dummyOrder).current_integrity),
        0 ≤ x ∧ x ≤ 100 := by
      intro x hx
      obtain ⟨i, _, rfl⟩ := List.mem_map.mp hx
      exact hok2 i
    constructor
    · refine div_nonneg ?_ (le_of_lt hpos)
      exact List.sum_nonneg (fun x hx => (hvals x hx).1)
    · rw [div_le_iff₀ hpos]
      have hsum := sum_le_hundred _ (fun x hx => (hvals x hx).2)
      rw [List.length_map] at hsum
      linarith

/-- Fragile 10 kg order at node 1, then a plain 10 kg order at node 2. -/
def c7o0 : Order := ⟨0, 1, 60, 10, true, 0, 5, Risk.unknown, 100, false⟩

def c7o1 : Order := ⟨1, 2, 60, 10, false, 0, 5, Risk.unknown, 100, false⟩

/-- Network for the 500-length-unit scenario: good 0→1, 500 m of bad
pavement 1→2, good 2→0. -/
def c7Graph : Graph :=
  { nodes := [⟨0, 0, 0⟩, ⟨1, 1, 0⟩, ⟨2, 2, 0⟩],
    edges := [(0, 1, plainEdge 100 1),
              (1, 2, ⟨500, 1, 40, 0, Pav.bad, false⟩),
              (2, 0, plainEdge 100 1)] }

def c7pf : ℕ → ℕ → Bool → List ℕ :=
  fun s t _ =>
    if s == t then [s]
    else if s == 0 && t == 1 then [0, 1]
    else if s == 1 && t == 2 then [1, 2]
    else if s == 2 && t == 0 then [2, 0]
    else []

/-- C7: (1) crossing a bad-pavement edge subtracts `length / 100 × 1.0`
integrity points, floored at 0, from each fragile order aboard (once per
order, cargo being duplicate-free); (2) the reported integrity average
always lies in [0, 100]; (3) in the concrete run where the fragile order
rides over exactly 500 length-units of bad pavement, it ends at
integrity 95. -/
theorem c7_integrity_damage :
    (∀ (g : Graph) (orders : List Order) (cargo : List ℕ) (u v : ℕ) (data : EdgeData)
        (ts dm : ℚ) (i : ℕ),
        g.findEdge u v = some data → data.pavement_quality = Pav.bad →
        cargo.Nodup → i ∈ cargo → ((orders.getD i dummyOrder)).is_fragile = true →
        i < orders.length →
        (((traverseLoop g cargo [u, v] ts dm orders).2.2.getD i dummyOrder)).current_integrity =
          (if ((orders.getD i dummyOrder)).current_integrity - data.length / 100 * 1 < 0 then 0
           else ((orders.getD i dummyOrder)).current_integrity - data.length / 100 * 1)) ∧
    (∀ (g : Graph) (pathFn : ℕ → ℕ → Bool → List ℕ) (cap : ℚ) (depot : ℕ)
        (mode : RouteMode) (orders : List Order) (seq : List ℕ),
        NonnegLengths g → IntegOK orders →
        0 ≤ (execute_delivery_route g pathFn cap depot mode orders seq).avg_integrity ∧
        (execute_delivery_route g pathFn cap depot mode orders seq).avg_integrity ≤ 100) ∧
    (((execRun c7Graph c7pf 30 0 [c7o0, c7o1] [0, 1]).orders.getD 0 dummyOrder)).current_integrity = 95 := by
  refine ⟨?_, execute_avg_bounds, by decide⟩
  intro g orders cargo u v data ts dm i hedge hbad hnd hic hfrag hlen
  simp only [traverseLoop, hedge, hbad, if_pos]
  rw [applyDamage_mem_once (get_fragile_cargo orders cargo) orders (data.length / 100 * 1) i
    (hnd.filter _) (List.mem_filter.mpr ⟨hic, hfrag⟩) hlen]

/-- C7 witness: the per-edge clause applied to the concrete bad edge of
`c7Graph`, and the average bound applied to the concrete run. -/
theorem c7_witness :
    (((traverseLoop c7Graph [0] [1, 2] 0 0 [c7o0, c7o1]).2.2.getD 0 dummyOrder)).current_integrity =
      (if (([c7o0, c7o1].getD 0 dummyOrder)).current_integrity - (500 : ℚ) / 100 * 1 < 0 then 0
       else (([c7o0, c7o1].getD 0 dummyOrder)).current_integrity - (500 : ℚ) / 100 * 1) ∧
    (0 ≤ (execute_delivery_route c7Graph c7pf 30 0 RouteMode.smart [c7o0, c7o1] [0, 1]).avg_integrity ∧
      (execute_delivery_route c7Graph c7pf 30 0 RouteMode.smart [c7o0, c7o1] [0, 1]).avg_integrity ≤ 100) := by
  constructor
  · exact c7_integrity_damage.1 c7Graph [c7o0, c7o1] [0] 1 2 ⟨500, 1, 40, 0, Pav.bad, false⟩
      0 0 0 (by decide) rfl (by decide) (by decide) rfl (by decide)
  · refine c7_integrity_damage.2.1 c7Graph c7pf 30 0 RouteMode.smart [c7o0, c7o1] [0, 1]
      ?_ ?_
    · intro e he
      fin_cases he <;> norm_num [plainEdge]
    · intro j
      match j with
      | 0 => exact ⟨by norm_num [c7o0], by norm_num [c7o0]⟩
      | 1 => exact ⟨by norm_num [c7o1], by norm_num [c7o1]⟩
      | (n + 2) =>
          rw [List.getD_eq_default _ _ (by simp)]
          exact ⟨by norm_num [dummyOrder], by norm_num [dummyOrder]⟩

/-! ## C8: unreachable stops are skipped, empty runs report 100 -/

theorem setOrder_getD_ne (orders : List Order) (i j : ℕ) (o : Order) (hij : i ≠ j) :
    (orders.set i o).getD j dummyOrder = orders.getD j dummyOrder := by
  rw [List.getD_eq_getElem?_getD, List.getElem?_set_ne hij, ← List.getD_eq_getElem?_getD]

/-- A step for a different order index never changes order `j`'s
delivered flag. -/
theorem execStep_delivered_ne (g : Graph) (pathFn : ℕ → ℕ → Bool → List ℕ)
    (cap : ℚ) (depot : ℕ) (st : ExecState) (i j : ℕ) (hij : i ≠ j) :
    ((execStep g pathFn cap depot st i).orders.getD j dummyOrder).delivered =
      ((st.orders.getD j dummyOrder)).delivered := by
  unfold execStep
  dsimp only
  by_cases hcl : can_load st.orders st.cargo cap ((st.orders.getD i dummyOrder).weight) = true
  · rw [if_pos hcl]
    by_cases hpe : (pathFn st.current_node ((st.orders.getD i dummyOrder).node_id)
        (decide (0 < (get_fragile_cargo st.orders st.cargo).length))).isEmpty = true
    · rw [if_pos hpe]
    · rw [if_neg hpe]
      rw [setOrder_getD_ne _ i j _ hij]
      exact traverse_path_pres Order.delivered delivered_insensitive g st.orders st.cargo _ j
  · rw [if_neg hcl]
    dsimp only
    by_cases hpe : (pathFn depot ((st.orders.getD i dummyOrder).node_id)
        (decide (0 < (get_fragile_cargo
          (traverse_path g st.orders st.cargo
            (pathFn st.current_node depot
              (decide (0 < (get_fragile_cargo st.orders st.cargo).length)))).2.2 []).length))).isEmpty = true
    · rw [if_pos hpe]
      exact traverse_path_pres Order.delivered delivered_insensitive g st.orders st.cargo _ j
    · rw [if_neg hpe]
      rw [setOrder_getD_ne _ i j _ hij]
      exact ((traverse_path_pres Order.delivered delivered_insensitive g _ [] _ j).trans
        (traverse_path_pres Order.delivered delivered_insensitive g st.orders st.cargo _ j))

/-- One step: an order whose node the path oracle can never reach stays
undelivered. -/
theorem execStep_undelivered (g : Graph) (pathFn : ℕ → ℕ → Bool → List ℕ)
    (cap : ℚ) (depot : ℕ) (st : ExecState) (i j : ℕ)
    (hun : ∀ s f, pathFn s ((st.orders.getD j dummyOrder).node_id) f = [])
    (hdel : ((st.orders.getD j dummyOrder)).delivered = false) :
    ((execStep g pathFn cap depot st i).orders.getD j dummyOrder).delivered = false := by
  by_cases hij : i = j
  · subst hij
    unfold execStep
    dsimp only
    by_cases hcl : can_load st.orders st.cargo cap ((st.orders.getD i dummyOrder).weight) = true
    · rw [if_pos hcl]
      rw [if_pos (by rw [hun st.current_node _]; rfl)]
      exact hdel
    · rw [if_neg hcl]
      dsimp only
      rw [if_pos (by rw [hun depot _]; rfl)]
      rw [traverse_path_pres Order.delivered delivered_insensitive g st.orders st.cargo _ i]
      exact hdel
  · rw [execStep_delivered_ne g pathFn cap depot st i j hij]
    exact hdel

/-- Node ids never change during execution. -/
theorem execStep_node_id (g : Graph) (pathFn : ℕ → ℕ → Bool → List ℕ)
    (cap : ℚ) (depot : ℕ) (st : ExecState) (i j : ℕ) :
    ((execStep g pathFn cap depot st i).orders.getD j dummyOrder).node_id =
      ((st.orders.getD j dummyOrder)).node_id :=
  execStep_pres Order.node_id node_insensitive (fun _ _ => rfl) g pathFn cap depot st i j

/-- Whole-run version: a globally unreachable order is never delivered. -/
theorem execRun_undelivered (g : Graph) (pathFn : ℕ → ℕ → Bool → List ℕ)
    (cap : ℚ) (depot : ℕ) (orders : List Order) (seq : List ℕ) (j : ℕ)
    (hun : ∀ s f, pathFn s ((orders.getD j dummyOrder).node_id) f = [])
    (hdel : ((orders.getD j dummyOrder)).delivered = false) :
    ((execRun g pathFn cap depot orders seq).orders.getD j dummyOrder).delivered = false := by
  unfold execRun execFinal
  dsimp only
  rw [traverse_path_pres Order.delivered delivered_insensitive g _ _ _ j]
  have hinv := foldl_invariant (execStep g pathFn cap depot)
    (fun s => ((s.orders.getD j dummyOrder)).delivered = false ∧
      ((s.orders.getD j dummyOrder)).node_id = ((orders.getD j dummyOrder)).node_id)
    ?_ seq (execInit orders depot) ⟨hdel, rfl⟩
  · exact hinv.1
  · intro b a hb
    constructor
    · refine execStep_undelivered g pathFn cap depot b a j ?_ hb.1
      intro s f
      rw [hb.2]
      exact hun s f
    · rw [execStep_node_id]
      exact hb.2

/-- Order at node 9, which the C8 path oracle can never reach. -/
def c8o1 : Order := ⟨1, 9, 60, 10, false, 0, 5, Risk.unknown, 100, false⟩

/-- Path oracle of the C8 scenario: like `c7pf` but node 9 is unreachable
from everywhere. -/
def c8pf : ℕ → ℕ → Bool → List ℕ :=
  fun s t f => if t == 9 then [] else c7pf s t f

/-- C8: (1) an order whose node the path oracle cannot reach from
anywhere is never marked delivered and is excluded from the delivered
list (hence from the count and the integrity average); (2) when zero
orders are delivered the reported average integrity is exactly 100; (3)
in the concrete two-order run with one unreachable stop, execution
continues and delivers the other order. -/
theorem c8_unreachable_skipped :
    (∀ (g : Graph) (pathFn : ℕ → ℕ → Bool → List ℕ) (cap : ℚ) (depot : ℕ)
        (orders : List Order) (seq : List ℕ) (j : ℕ),
        (∀ s f, pathFn s ((orders.getD j dummyOrder).node_id) f = []) →
        ((orders.getD j dummyOrder)).delivered = false →
        ((execRun g pathFn cap depot orders seq).orders.getD j dummyOrder).delivered = false ∧
        j ∉ seq.filter (fun i =>
          ((execRun g pathFn cap depot orders seq).orders.getD i dummyOrder).delivered)) ∧
    (∀ (g : Graph) (pathFn : ℕ → ℕ → Bool → List ℕ) (cap : ℚ) (depot : ℕ)
        (mode : RouteMode) (orders : List Order) (seq : List ℕ),
        (execute_delivery_route g pathFn cap depot mode orders seq).orders_delivered = 0 →
        (execute_delivery_route g pathFn cap depot mode orders seq).avg_integrity = 100) ∧
    ((execute_delivery_route c7Graph c8pf 30 0 RouteMode.smart [c7o0, c8o1] [0, 1]).orders_delivered = 1 ∧
      ((execRun c7Graph c8pf 30 0 [c7o0, c8o1] [0, 1]).orders.getD 0 dummyOrder).delivered = true ∧
      ((execRun c7Graph c8pf 30 0 [c7o0, c8o1] [0, 1]).orders.getD 1 dummyOrder).delivered = false) := by
  refine ⟨?_, ?_, by decide⟩
  · intro g pathFn cap depot orders seq j hun hdel
    have hfin := execRun_undelivered g pathFn cap depot orders seq j hun hdel
    refine ⟨hfin, ?_⟩
    intro hmem
    have := (List.mem_filter.mp hmem).2
    rw [hfin] at this
    cases this
  · intro g pathFn cap depot mode orders seq h
    unfold execute_delivery_route at h ⊢
    dsimp only at h ⊢
    rw [List.length_eq_zero] at h
    rw [h]
    rfl

/-- C8 witness: the skip clause applied to the unreachable node-9 order
of the concrete scenario, plus the empty-run average clause applied to an
empty sequence. -/
theorem c8_witness :
    (((execRun c7Graph c8pf 30 0 [c7o0, c8o1] [0, 1]).orders.getD 1 dummyOrder).delivered = false ∧
      1 ∉ ([0, 1] : List ℕ).filter (fun i =>
        ((execRun c7Graph c8pf 30 0 [c7o0, c8o1] [0, 1]).orders.getD i dummyOrder).delivered)) ∧
    (execute_delivery_route c7Graph c8pf 30 0 RouteMode.smart [c7o0, c8o1] []).avg_integrity = 100 := by
  constructor
  · exact c8_unreachable_skipped.1 c7Graph c8pf 30 0 [c7o0, c8o1] [0, 1] 1
      (fun s f => rfl) rfl
  · exact c8_unreachable_skipped.2.1 c7Graph c8pf 30 0 RouteMode.smart [c7o0, c8o1] []
      (by decide)

/-! ## C10: overweight orders are marked delivered but never loaded -/

theorem applyDamage_length (frag : List ℕ) : ∀ (orders : List Order) (t : ℚ),
    (applyDamage orders frag t).length = orders.length := by
  induction frag with
  | nil => intro orders t; rfl
  | cons i rest ih =>
      intro orders t
      exact (ih (damageTick orders i t) t).trans (damageTick_length orders i t)

theorem traverseLoop_length (g : Graph) (cargo : List ℕ) : ∀ (path : List ℕ)
    (ts dm : ℚ) (orders : List Order),
    (traverseLoop g cargo path ts dm orders).2.2.length = orders.length := by
  intro path
  induction path with
  | nil => intro ts dm orders; rfl
  | cons u rest ih =>
      intro ts dm orders
      cases rest with
      | nil => rfl
      | cons v rest2 =>
          simp only [traverseLoop]
          cases hedge : g.findEdge u v with
          | none => exact ih ts dm orders
          | some data =>
              by_cases hbad : data.pavement_quality = Pav.bad
              · simp only [hbad, if_pos]
                exact (ih _ _ _).trans (applyDamage_length _ orders _)
              · simp only [hbad, if_neg, if_false]
                exact ih _ _ _

theorem traverse_path_length (g : Graph) (orders : List Order) (cargo path : List ℕ) :
    (traverse_path g orders cargo path).2.2.length = orders.length := by
  unfold traverse_path
  by_cases hp : path.isEmpty
  · rw [if_pos hp]
  · rw [if_neg hp]
    exact traverseLoop_length g cargo path 0 0 orders

theorem execStep_length (g : Graph) (pathFn : ℕ → ℕ → Bool → List ℕ) (cap : ℚ)
    (depot : ℕ) (st : ExecState) (i : ℕ) :
    (execStep g pathFn cap depot st i).orders.length = st.orders.length := by
  unfold execStep
  dsimp only
  by_cases hcl : can_load st.orders st.cargo cap ((st.orders.getD i dummyOrder).weight) = true
  · rw [if_pos hcl]
    by_cases hpe : (pathFn st.current_node ((st.orders.getD i dummyOrder).node_id)
        (decide (0 < (get_fragile_cargo st.orders st.cargo).length))).isEmpty = true
    · rw [if_pos hpe]
    · rw [if_neg hpe]
      dsimp only
      rw [List.length_set]
      exact traverse_path_length g st.orders st.cargo _
  · rw [if_neg hcl]
    dsimp only
    by_cases hpe : (pathFn depot ((st.orders.getD i dummyOrder).node_id)
        (decide (0 < (get_fragile_cargo
          (traverse_path g st.orders st.cargo
            (pathFn st.current_node depot
              (decide (0 < (get_fragile_cargo st.orders st.cargo).length)))).2.2 []).length))).isEmpty = true
    · rw [if_pos hpe]
      exact traverse_path_length g st.orders st.cargo _
    · rw [if_neg hpe]
      dsimp only
      rw [List.length_set]
      exact (traverse_path_length g _ [] _).trans (traverse_path_length g st.orders st.cargo _)

/-- The delivered flag can only go from `false` to `true`, never back. -/
theorem execStep_delivered_mono (g : Graph) (pathFn : ℕ → ℕ → Bool → List ℕ)
    (cap : ℚ) (depot : ℕ) (st : ExecState) (i j : ℕ)
    (hd : ((st.orders.getD j dummyOrder)).delivered = true) :
    ((execStep g pathFn cap depot st i).orders.getD j dummyOrder).delivered = true := by
  by_cases hij : i = j
  · subst hij
    unfold execStep
    dsimp only
    by_cases hcl : can_load st.orders st.cargo cap ((st.orders.getD i dummyOrder).weight) = true
    · rw [if_pos hcl]
      by_cases hpe : (pathFn st.current_node ((st.orders.getD i dummyOrder).node_id)
          (decide (0 < (get_fragile_cargo st.orders st.cargo).length))).isEmpty = true
      · rw [if_pos hpe]
        exact hd
      · rw [if_neg hpe]
        dsimp only
        by_cases hi : i < (traverse_path g st.orders st.cargo
            (pathFn st.current_node ((st.orders.getD i dummyOrder).node_id)
              (decide (0 < (get_fragile_cargo st.orders st.cargo).length)))).2.2.length
        · rw [List.getD_eq_getElem?_getD, List.getElem?_set_eq hi]
          rfl
        · rw [List.set_eq_of_length_le (by omega)]
          rw [traverse_path_pres Order.delivered delivered_insensitive g st.orders st.cargo _ i]
          exact hd
    · rw [if_neg hcl]
      dsimp only
      by_cases hpe : (pathFn depot ((st.orders.getD i dummyOrder).node_id)
          (decide (0 < (get_fragile_cargo
            (traverse_path g st.orders st.cargo
              (pathFn st.current_node depot
                (decide (0 < (get_fragile_cargo st.orders st.cargo).length)))).2.2 []).length))).isEmpty = true
      · rw [if_pos hpe]
        rw [traverse_path_pres Order.delivered delivered_insensitive g st.orders st.cargo _ i]
        exact hd
      · rw [if_neg hpe]
        dsimp only
        by_cases hi : i < (traverse_path g
            (traverse_path g st.orders st.cargo
              (pathFn st.current_node depot
                (decide (0 < (get_fragile_cargo st.orders st.cargo).length)))).2.2 []
            (pathFn depot ((st.orders.getD i dummyOrder).node_id)
              (decide (0 < (get_fragile_cargo
                (traverse_path g st.orders st.cargo
                  (pathFn st.current_node depot
                    (decide (0 < (get_fragile_cargo st.orders st.cargo).length)))).2.2 []).length)))).2.2.length
        · rw [List.getD_eq_getElem?_getD, List.getElem?_set_eq hi]
          rfl
        · rw [List.set_eq_of_length_le (by omega)]
          rw [traverse_path_pres Order.delivered delivered_insensitive g _ [] _ i,
            traverse_path_pres Order.delivered delivered_insensitive g st.orders st.cargo _ i]
          exact hd
  · rw [execStep_delivered_ne g pathFn cap depot st i j hij]
    exact hd

/-- Processing a reachable, in-bounds order marks it delivered. -/
theorem execStep_delivers (g : Graph) (pathFn : ℕ → ℕ → Bool → List ℕ)
    (cap : ℚ) (depot : ℕ) (st : ExecState) (j : ℕ)
    (hreach : ∀ s f, pathFn s ((st.orders.getD j dummyOrder)).node_id f ≠ [])
    (hjlen : j < st.orders.length) :
    ((execStep g pathFn cap depot st j).orders.getD j dummyOrder).delivered = true := by
  unfold execStep
  dsimp only
  by_cases hcl : can_load st.orders st.cargo cap ((st.orders.getD j dummyOrder).weight) = true
  · rw [if_pos hcl]
    rw [if_neg (by
      intro hpe
      exact hreach st.current_node _ (List.isEmpty_iff.mp hpe))]
    dsimp only
    have hlen2 : j < (traverse_path g st.orders st.cargo
        (pathFn st.current_node ((st.orders.getD j dummyOrder).node_id)
          (decide (0 < (get_fragile_cargo st.orders st.cargo).length)))).2.2.length := by
      rw [traverse_path_length]
      exact hjlen
    rw [List.getD_eq_getElem?_getD, List.getElem?_set_eq hlen2]
    rfl
  · rw [if_neg hcl]
    dsimp only
    rw [if_neg (by
      intro hpe
      exact hreach depot _ (List.isEmpty_iff.mp hpe))]
    dsimp only
    have hlen2 : j < (traverse_path g
        (traverse_path g st.orders st.cargo
          (pathFn st.current_node depot
            (decide (0 < (get_fragile_cargo st.orders st.cargo).length)))).2.2 []
        (pathFn depot ((st.orders.getD j dummyOrder).node_id)
          (decide (0 < (get_fragile_cargo
            (traverse_path g st.orders st.cargo
              (pathFn st.current_node depot
                (decide (0 < (get_fragile_cargo st.orders st.cargo).length)))).2.2 []).length)))).2.2.length := by
      rw [traverse_path_length, traverse_path_length]
      exact hjlen
    rw [List.getD_eq_getElem?_getD, List.getElem?_set_eq hlen2]
    rfl

/-- Run invariant for an overweight order `j`: never aboard, its record
untouched except (possibly) the delivered flag, statics preserved. -/
def c10Inv (orders0 : List Order) (j : ℕ) (st : ExecState) : Prop :=
  j ∉ st.cargo ∧
  (∀ k, ((st.orders.getD k dummyOrder)).weight = ((orders0.getD k dummyOrder)).weight) ∧
  ((st.orders.getD j dummyOrder)).current_integrity =
    ((orders0.getD j dummyOrder)).current_integrity ∧
  ((st.orders.getD j dummyOrder)).node_id = ((orders0.getD j dummyOrder)).node_id ∧
  st.orders.length = orders0.length

theorem execFinal_cargo (g : Graph) (pathFn : ℕ → ℕ → Bool → List ℕ) (depot : ℕ)
    (st : ExecState) : (execFinal g pathFn depot st).cargo = st.cargo := rfl

theorem execStep_c10inv (g : Graph) (pathFn : ℕ → ℕ → Bool → List ℕ) (cap : ℚ)
    (depot : ℕ) (orders0 : List Order) (j : ℕ)
    (hjw : cap < ((orders0.getD j dummyOrder)).weight)
    (hw : ∀ k, 0 ≤ ((orders0.getD k dummyOrder)).weight)
    (st : ExecState) (i : ℕ) (hQ : c10Inv orders0 j st) :
    c10Inv orders0 j (execStep g pathFn cap depot st i) := by
  obtain ⟨hcargo, hwts, hinteg, hnode, hlen⟩ := hQ
  have hw2 : ∀ k, (((execStep g pathFn cap depot st i).orders.getD k dummyOrder)).weight =
      ((orders0.getD k dummyOrder)).weight := fun k =>
    (execStep_pres Order.weight weight_insensitive (fun _ _ => rfl) g pathFn cap depot st i k).trans
      (hwts k)
  have hnode2 : (((execStep g pathFn cap depot st i).orders.getD j dummyOrder)).node_id =
      ((orders0.getD j dummyOrder)).node_id :=
    (execStep_node_id g pathFn cap depot st i j).trans hnode
  have hlen2 : (execStep g pathFn cap depot st i).orders.length = orders0.length :=
    (execStep_length g pathFn cap depot st i).trans hlen
  have hboth : j ∉ (execStep g pathFn cap depot st i).cargo ∧
      (((execStep g pathFn cap depot st i).orders.getD j dummyOrder)).current_integrity =
        ((st.orders.getD j dummyOrder)).current_integrity := by
    unfold execStep
    dsimp only
    by_cases hcl : can_load st.orders st.cargo cap ((st.orders.getD i dummyOrder).weight) = true
    · rw [if_pos hcl]
      by_cases hpe : (pathFn st.current_node ((st.orders.getD i dummyOrder).node_id)
          (decide (0 < (get_fragile_cargo st.orders st.cargo).length))).isEmpty = true
      · rw [if_pos hpe]
        exact ⟨hcargo, rfl⟩
      · rw [if_neg hpe]
        dsimp only
        refine ⟨?_, ?_⟩
        · by_cases hij : i = j
          · have hjw2 : cap < ((st.orders.getD i dummyOrder)).weight := by
              rw [hij, hwts j]
              exact hjw
            have hwr : ∀ k, (((traverse_path g st.orders st.cargo
                (pathFn st.current_node ((st.orders.getD i dummyOrder).node_id)
                  (decide (0 < (get_fragile_cargo st.orders st.cargo).length)))).2.2.getD k dummyOrder)).weight =
                ((st.orders.getD k dummyOrder)).weight := fun k =>
              traverse_path_pres Order.weight weight_insensitive g st.orders st.cargo _ k
            have hload : 0 ≤ current_load (traverse_path g st.orders st.cargo
                (pathFn st.current_node ((st.orders.getD i dummyOrder).node_id)
                  (decide (0 < (get_fragile_cargo st.orders st.cargo).length)))).2.2 st.cargo := by
              refine current_load_nonneg _ st.cargo ?_
              intro k
              rw [hwr k, hwts k]
              exact hw k
            have hclf : ¬(can_load (traverse_path g st.orders st.cargo
                (pathFn st.current_node ((st.orders.getD i dummyOrder).node_id)
                  (decide (0 < (get_fragile_cargo st.orders st.cargo).length)))).2.2 st.cargo cap
                ((st.orders.getD i dummyOrder).weight) = true) := by
              intro hc
              have hle := of_decide_eq_true hc
              linarith
            rw [if_neg hclf]
            exact hcargo
          · by_cases hcl2 : can_load (traverse_path g st.orders st.cargo
                (pathFn st.current_node ((st.orders.getD i dummyOrder).node_id)
                  (decide (0 < (get_fragile_cargo st.orders st.cargo).length)))).2.2 st.cargo cap
                ((st.orders.getD i dummyOrder).weight) = true
            · rw [if_pos hcl2]
              intro hmem
              rcases List.mem_append.mp hmem with h | h
              · exact hcargo h
              · exact hij (List.mem_singleton.mp h).symm
            · rw [if_neg hcl2]
              exact hcargo
        · exact (setDelivered_pres Order.current_integrity (fun _ _ => rfl) _ i j _ rfl).trans
            (congrArg Order.current_integrity
              (traverse_path_notincargo g st.orders st.cargo _ j hcargo))
    · rw [if_neg hcl]
      dsimp only
      by_cases hpe : (pathFn depot ((st.orders.getD i dummyOrder).node_id)
          (decide (0 < (get_fragile_cargo
            (traverse_path g st.orders st.cargo
              (pathFn st.current_node depot
                (decide (0 < (get_fragile_cargo st.orders st.cargo).length)))).2.2 []).length))).isEmpty = true
      · rw [if_pos hpe]
        exact ⟨List.not_mem_nil j, congrArg Order.current_integrity
          (traverse_path_notincargo g st.orders st.cargo _ j hcargo)⟩
      · rw [if_neg hpe]
        dsimp only
        refine ⟨?_, ?_⟩
        · by_cases hij : i = j
          · have hjw2 : cap < ((st.orders.getD i dummyOrder)).weight := by
              rw [hij, hwts j]
              exact hjw
            have hclf : ¬(can_load (traverse_path g
                  (traverse_path g st.orders st.cargo
                    (pathFn st.current_node depot
                      (decide (0 < (get_fragile_cargo st.orders st.cargo).length)))).2.2 []
                  (pathFn depot ((st.orders.getD i dummyOrder).node_id)
                    (decide (0 < (get_fragile_cargo
                      (traverse_path g st.orders st.cargo
                        (pathFn st.current_node depot
                          (decide (0 < (get_fragile_cargo st.orders st.cargo).length)))).2.2 []).length)))).2.2
                [] cap ((st.orders.getD i dummyOrder).weight) = true) := by
              intro hc
              have hle := of_decide_eq_true hc
              rw [show current_load _ [] = (0 : ℚ) from rfl, zero_add] at hle
              linarith
            rw [if_neg hclf]
            exact List.not_mem_nil j
          · by_cases hcl2 : can_load (traverse_path g
                  (traverse_path g st.orders st.cargo
                    (pathFn st.current_node depot
                      (decide (0 < (get_fragile_cargo st.orders st.cargo).length)))).2.2 []
                  (pathFn depot ((st.orders.getD i dummyOrder).node_id)
                    (decide (0 < (get_fragile_cargo
                      (traverse_path g st.orders st.cargo
                        (pathFn st.current_node depot
                          (decide (0 < (get_fragile_cargo st.orders st.cargo).length)))).2.2 []).length)))).2.2
                [] cap ((st.orders.getD i dummyOrder).weight) = true
            · rw [if_pos hcl2]
              intro hmem
              rcases List.mem_append.mp hmem with h | h
              · exact List.not_mem_nil j h
              · exact hij (List.mem_singleton.mp h).symm
            · rw [if_neg hcl2]
              exact List.not_mem_nil j
        · exact (setDelivered_pres Order.current_integrity (fun _ _ => rfl) _ i j _ rfl).trans
            ((congrArg Order.current_integrity
              (traverse_path_notincargo g _ [] _ j (List.not_mem_nil j))).trans
             (congrArg Order.current_integrity
              (traverse_path_notincargo g st.orders st.cargo _ j hcargo)))
  exact ⟨hboth.1, hw2, hboth.2.trans hinteg, hnode2, hlen2⟩

/-- C10: an order strictly heavier than the whole truck capacity, with a
destination the path oracle can always reach, is still marked delivered
and appears in the delivered list that feeds `orders_delivered` and the
integrity average; yet it is never aboard at any state the executor
passes through, and its integrity at the end is exactly its initial
value (it can accumulate no damage because it never rides). -/
theorem c10_overweight_delivered_never_loaded (g : Graph)
    (pathFn : ℕ → ℕ → Bool → List ℕ) (cap : ℚ) (depot : ℕ)
    (orders : List Order) (seq : List ℕ) (j : ℕ)
    (hjw : cap < ((orders.getD j dummyOrder)).weight)
    (hw : ∀ k, 0 ≤ ((orders.getD k dummyOrder)).weight)
    (hreach : ∀ s f, pathFn s ((orders.getD j dummyOrder)).node_id f ≠ [])
    (hjin : j ∈ seq) (hjlen : j < orders.length) :
    ((execRun g pathFn cap depot orders seq).orders.getD j dummyOrder).delivered = true ∧
    j ∈ seq.filter (fun i =>
      ((execRun g pathFn cap depot orders seq).orders.getD i dummyOrder).delivered) ∧
    (∀ st ∈ execStates g pathFn cap depot orders seq, j ∉ st.cargo) ∧
    ((execRun g pathFn cap depot orders seq).orders.getD j dummyOrder).current_integrity =
      ((orders.getD j dummyOrder)).current_integrity := by
  have hstep : ∀ (b : ExecState) (a : ℕ), c10Inv orders j b →
      c10Inv orders j (execStep g pathFn cap depot b a) :=
    fun b a hb => execStep_c10inv g pathFn cap depot orders j hjw hw b a hb
  have hinit : c10Inv orders j (execInit orders depot) :=
    ⟨List.not_mem_nil j, fun _ => rfl, rfl, rfl, rfl⟩
  have hfoldQ : c10Inv orders j
      (seq.foldl (execStep g pathFn cap depot) (execInit orders depot)) :=
    foldl_invariant (execStep g pathFn cap depot) (c10Inv orders j) hstep seq _ hinit
  have hfold_del : ((seq.foldl (execStep g pathFn cap depot)
      (execInit orders depot)).orders.getD j dummyOrder).delivered = true := by
    obtain ⟨l1, l2, hseq⟩ := List.append_of_mem hjin
    rw [hseq, List.foldl_append, List.foldl_cons]
    have hQ1 : c10Inv orders j
        (l1.foldl (execStep g pathFn cap depot) (execInit orders depot)) :=
      foldl_invariant (execStep g pathFn cap depot) (c10Inv orders j) hstep l1 _ hinit
    have hdel1 : ((execStep g pathFn cap depot
        (l1.foldl (execStep g pathFn cap depot) (execInit orders depot)) j).orders.getD j
        dummyOrder).delivered = true := by
      refine execStep_delivers g pathFn cap depot _ j ?_ ?_
      · intro s f
        rw [hQ1.2.2.2.1]
        exact hreach s f
      · rw [hQ1.2.2.2.2]
        exact hjlen
    exact foldl_invariant (execStep g pathFn cap depot)
      (fun s => ((s.orders.getD j dummyOrder)).delivered = true)
      (fun b a hb => execStep_delivered_mono g pathFn cap depot b a j hb) l2 _ hdel1
  have hrun_del : ((execRun g pathFn cap depot orders seq).orders.getD j
      dummyOrder).delivered = true := by
    unfold execRun
    rw [execFinal_pres Order.delivered delivered_insensitive]
    exact hfold_del
  refine ⟨hrun_del, List.mem_filter.mpr ⟨hjin, hrun_del⟩, ?_, ?_⟩
  · intro st hst
    unfold execStates at hst
    rcases List.mem_append.mp hst with h | h
    · exact (scanl_forall (execStep g pathFn cap depot) (c10Inv orders j) hstep seq
        (execInit orders depot) hinit st h).1
    · have hst2 : st = execRun g pathFn cap depot orders seq := by
        simpa using h
      rw [hst2]
      unfold execRun
      rw [execFinal_cargo]
      exact hfoldQ.1
  · unfold execRun execFinal
    dsimp only
    rw [traverse_path_notincargo g _ _ _ j hfoldQ.1]
    exact hfoldQ.2.2.1

/-- The C6/C10 path oracle always reaches node 1. -/
theorem c6pf_ne_nil (s : ℕ) (f : Bool) : c6pf s 1 f ≠ [] := by
  unfold c6pf
  by_cases h1 : (s == 1) = true
  · rw [if_pos h1]
    exact List.cons_ne_nil s []
  · rw [if_neg h1]
    by_cases h2 : (s == 0 && 1 == 1) = true
    · rw [if_pos h2]
      exact List.cons_ne_nil 0 [1]
    · rw [if_neg h2]
      exact List.cons_ne_nil 1 [0]

/-- C10 witness: the 40 kg order against the 30 kg truck on the two-node
network ends delivered, never aboard, at its initial 100 integrity. -/
theorem c10_witness :
    ((execRun c4Graph c6pf 30 0 [c6Order] [0]).orders.getD 0 dummyOrder).delivered = true ∧
    0 ∉ (execRun c4Graph c6pf 30 0 [c6Order] [0]).cargo ∧
    ((execRun c4Graph c6pf 30 0 [c6Order] [0]).orders.getD 0 dummyOrder).current_integrity =
      (([c6Order].getD 0 dummyOrder)).current_integrity := by
  have h := c10_overweight_delivered_never_loaded c4Graph c6pf 30 0 [c6Order] [0] 0
    (by decide)
    (fun k => by
      cases k with
      | zero => decide
      | succ n =>
          rw [List.getD_eq_default _ _ (by simp)]
          decide)
    (fun s f => c6pf_ne_nil s f)
    (List.mem_singleton.mpr rfl)
    (by decide)
  exact ⟨h.1,
    h.2.2.1 (execRun c4Graph c6pf 30 0 [c6Order] [0])
      (List.mem_append.mpr (Or.inr (List.mem_singleton.mpr rfl))),
    h.2.2.2⟩

end Entrega
